import Mathlib

/-!
Verification of the shared utility core of the lume static-site tool
(`core/utils.ts`): the deep-merge combinator, the plain-object test,
the import-map resolver, the upgrade notifier, and the bounded-concurrency
runner.  Each JavaScript function is shallowly embedded as an executable
Lean definition; theorems below settle the specification claims.
-/

namespace Lume

/-- Model of a JavaScript value as seen by `merge` and `isPlainObject`.
`prim` is a number, `str` a string primitive, `arr` an Array (a Sequence),
`obj` an ordinary object literal (default `Object.prototype.toString`),
`reactElem` an object whose `$$typeof` property is the
`Symbol.for("react.element")` marker, `nullProtoObj` an object created with
a `null` prototype (it has no `toString` method, so calling `toString` on
it throws), and `weirdObj s fs` an object whose overridden `toString`
returns `s`.  Fields are kept in insertion order, as JavaScript does for
string keys. -/
inductive JValue where
  | prim : Int → JValue
  | str : String → JValue
  | arr : List JValue → JValue
  | obj : List (String × JValue) → JValue
  | reactElem : List (String × JValue) → JValue
  | nullProtoObj : List (String × JValue) → JValue
  | weirdObj : String → List (String × JValue) → JValue

mutual

/-- JavaScript `String(v)` / `v.toString()`.  Arrays join their elements
with commas (`Array.prototype.toString`), ordinary objects render as
`"[object Object]"`, a null-prototype object has no `toString`, so the
call throws (`Except.error`). -/
def toStringJS : JValue → Except Unit String
  | .prim n => .ok (toString n)
  | .str s => .ok s
  | .arr xs => (toStringListJS xs).map (String.intercalate ",")
  | .obj _ => .ok "[object Object]"
  | .reactElem _ => .ok "[object Object]"
  | .nullProtoObj _ => .error ()
  | .weirdObj s _ => .ok s

/-- String conversion of each element of an array, left to right; the
first element whose conversion throws makes the whole conversion throw. -/
def toStringListJS : List JValue → Except Unit (List String)
  | [] => .ok []
  | v :: rest =>
    match toStringJS v with
    | .error e => .error e
    | .ok s =>
      match toStringListJS rest with
      | .error e => .error e
      | .ok l => .ok (s :: l)

end

/-- Embedding of `isPlainObject` (core/utils.ts): `typeof obj === "object"
&& obj !== null && obj.toString() === "[object Object]" && obj["$$typeof"]
!== reactElement`.  Primitives are not objects; for object values the
`toString()` call may throw (null prototype), which propagates. -/
def isPlainObject (v : JValue) : Except Unit Bool :=
  match v with
  | .prim _ => .ok false
  | .str _ => .ok false
  | .arr xs => (toStringJS (.arr xs)).map (fun s => s == "[object Object]")
  | .obj _ => .ok true
  | .reactElem _ => .ok false
  | .nullProtoObj _ => .error ()
  | .weirdObj s _ => .ok (s == "[object Object]")

/-- Entries of a JavaScript array: index keys (as strings) paired with the
elements, in order — what `Object.entries` and object spread see. -/
def arrEntries (xs : List JValue) : List (String × JValue) :=
  xs.enum.map (fun p => (toString p.1, p.2))

/-- Entries of a JavaScript string primitive: index keys paired with
one-character strings. -/
def strEntries (s : String) : List (String × JValue) :=
  s.data.enum.map (fun p => (toString p.1, JValue.str (String.singleton p.2)))

/-- Embedding of `Object.entries(v)` (also the own enumerable properties
copied by an object spread `{...v}`): the fields of an object, indexed
elements of an array or string, nothing for a number.  The `$$typeof`
marker of a react element is a symbol key, which `Object.entries` does not
report. -/
def entriesJS : JValue → List (String × JValue)
  | .prim _ => []
  | .str s => strEntries s
  | .arr xs => arrEntries xs
  | .obj fs => fs
  | .reactElem fs => fs
  | .nullProtoObj fs => fs
  | .weirdObj _ fs => fs

/-- Property read `m[key]` on a field list: first (unique) matching key. -/
def lookupField : List (String × JValue) → String → Option JValue
  | [], _ => none
  | (k, v) :: rest, key => if k == key then some v else lookupField rest key

/-- Property write `m[key] = nv` on a field list: an existing key keeps its
position and gets the new value, a new key is appended — JavaScript's
insertion-order semantics for string keys. -/
def insertField : List (String × JValue) → String → JValue → List (String × JValue)
  | [], key, nv => [(key, nv)]
  | (k, v) :: rest, key, nv =>
    if k == key then (k, nv) :: rest else (k, v) :: insertField rest key nv

mutual

/-- Size measure on values used to justify termination of `mergeEntries`. -/
def jsize : JValue → Nat
  | .prim _ => 1
  | .str _ => 1
  | .arr xs => 1 + jsizeList xs
  | .obj fs => 1 + jsizeFields fs
  | .reactElem fs => 1 + jsizeFields fs
  | .nullProtoObj fs => 1 + jsizeFields fs
  | .weirdObj _ fs => 1 + jsizeFields fs

/-- Size of a list of values. -/
def jsizeList : List JValue → Nat
  | [] => 0
  | v :: rest => 1 + jsize v + jsizeList rest

/-- Size of a field list, counting only the values. -/
def jsizeFields : List (String × JValue) → Nat
  | [] => 0
  | p :: rest => 1 + jsize p.2 + jsizeFields rest

end

theorem jsizeFields_arrEntries (xs : List JValue) :
    jsizeFields (arrEntries xs) = jsizeList xs := by
  have h : ∀ (ys : List JValue) (n : Nat),
      jsizeFields ((ys.enumFrom n).map (fun p => (toString p.1, p.2))) = jsizeList ys := by
    intro ys
    induction ys with
    | nil => intro n; simp [jsizeList, jsizeFields]
    | cons y ys ih =>
      intro n
      simp only [List.enumFrom, List.map, jsizeFields, jsizeList, ih]
  simpa [arrEntries, List.enum] using h xs 0

theorem jsizeFields_entries_lt_of_plain {v : JValue}
    (h : isPlainObject v = .ok true) : jsizeFields (entriesJS v) < jsize v := by
  cases v with
  | prim n => simp [isPlainObject] at h
  | str s => simp [isPlainObject] at h
  | arr xs =>
    simp only [entriesJS, jsize, jsizeFields_arrEntries]
    omega
  | obj fs => simp only [entriesJS, jsize]; omega
  | reactElem fs => simp [isPlainObject] at h
  | nullProtoObj fs => simp [isPlainObject] at h
  | weirdObj s fs => simp only [entriesJS, jsize]; omega

/-- The loop of `merge` (core/utils.ts lines 124-134): iterate over the
entries of `user`, and for each `(key, value)`, if the value currently
merged at `key` and `value` are both plain objects, merge them recursively
(the recursive `merge(merged[key], value)` spreads `merged[key]` and walks
the entries of `value`, which is what the nested call does here);
otherwise store `value` at `key`.  The `&&` of the source short-circuits:
`isPlainObject(value)` is evaluated only when `isPlainObject(merged[key])`
returned `true`; a throw from either test propagates. -/
def mergeEntries (m : List (String × JValue)) (l : List (String × JValue)) :
    Except Unit (List (String × JValue)) :=
  match l with
  | [] => .ok m
  | (k, v) :: rest =>
    match lookupField m k with
    | none => mergeEntries (insertField m k v) rest
    | some cur =>
      match isPlainObject cur with
      | .error e => .error e
      | .ok false => mergeEntries (insertField m k v) rest
      | .ok true =>
        match hv : isPlainObject v with
        | .error e => .error e
        | .ok false => mergeEntries (insertField m k v) rest
        | .ok true =>
          match mergeEntries (entriesJS cur) (entriesJS v) with
          | .error e => .error e
          | .ok mv => mergeEntries (insertField m k (JValue.obj mv)) rest
  termination_by jsizeFields l
  decreasing_by
  all_goals simp only [jsizeFields]
  all_goals first
    | (have hlt := jsizeFields_entries_lt_of_plain hv; omega)
    | omega

/-- JavaScript truthiness of the optional `user` argument: `undefined`,
`0` and `""` are falsy, every object is truthy. -/
def falsyJS : Option JValue → Bool
  | none => true
  | some (.prim n) => n == 0
  | some (.str s) => s == ""
  | some _ => false

/-- Embedding of `merge(defaults, user?)` (core/utils.ts lines 114-137):
start from a shallow copy `{...defaults}`; if `user` is falsy return it,
otherwise fold the entries of `user` into it with `mergeEntries`. -/
def merge (defaults : JValue) (user : Option JValue) : Except Unit JValue :=
  if falsyJS user then .ok (.obj (entriesJS defaults))
  else
    match user with
    | none => .ok (.obj (entriesJS defaults))
    | some uv => (mergeEntries (entriesJS defaults) (entriesJS uv)).map JValue.obj

theorem mergeEntries_nil (m : List (String × JValue)) : mergeEntries m [] = .ok m := by
  rw [mergeEntries.eq_def]

theorem mergeEntries_cons_none {m : List (String × JValue)} {k : String}
    (v : JValue) (rest : List (String × JValue)) (h : lookupField m k = none) :
    mergeEntries m ((k, v) :: rest) = mergeEntries (insertField m k v) rest := by
  rw [mergeEntries.eq_def]; simp only [h]

theorem mergeEntries_cons_curErr {m : List (String × JValue)} {k : String} {cur : JValue}
    (v : JValue) (rest : List (String × JValue)) (h : lookupField m k = some cur)
    (he : isPlainObject cur = .error ()) :
    mergeEntries m ((k, v) :: rest) = .error () := by
  rw [mergeEntries.eq_def]; simp only [h, he]

theorem mergeEntries_cons_curFalse {m : List (String × JValue)} {k : String} {cur : JValue}
    (v : JValue) (rest : List (String × JValue)) (h : lookupField m k = some cur)
    (hc : isPlainObject cur = .ok false) :
    mergeEntries m ((k, v) :: rest) = mergeEntries (insertField m k v) rest := by
  rw [mergeEntries.eq_def]; simp only [h, hc]

theorem mergeEntries_cons_valErr {m : List (String × JValue)} {k : String} {cur v : JValue}
    (rest : List (String × JValue)) (h : lookupField m k = some cur)
    (hc : isPlainObject cur = .ok true) (hv : isPlainObject v = .error ()) :
    mergeEntries m ((k, v) :: rest) = .error () := by
  rw [mergeEntries.eq_def]; simp only [h, hc]
  split <;> simp_all

theorem mergeEntries_cons_valFalse {m : List (String × JValue)} {k : String} {cur v : JValue}
    (rest : List (String × JValue)) (h : lookupField m k = some cur)
    (hc : isPlainObject cur = .ok true) (hv : isPlainObject v = .ok false) :
    mergeEntries m ((k, v) :: rest) = mergeEntries (insertField m k v) rest := by
  rw [mergeEntries.eq_def]; simp only [h, hc]
  split <;> simp_all

theorem mergeEntries_cons_recErr {m : List (String × JValue)} {k : String} {cur v : JValue}
    (rest : List (String × JValue)) (h : lookupField m k = some cur)
    (hc : isPlainObject cur = .ok true) (hv : isPlainObject v = .ok true)
    (hm : mergeEntries (entriesJS cur) (entriesJS v) = .error ()) :
    mergeEntries m ((k, v) :: rest) = .error () := by
  rw [mergeEntries.eq_def]; simp only [h, hc, hm]
  split <;> simp_all

theorem mergeEntries_cons_rec {m : List (String × JValue)} {k : String} {cur v : JValue}
    {mv : List (String × JValue)} (rest : List (String × JValue))
    (h : lookupField m k = some cur) (hc : isPlainObject cur = .ok true)
    (hv : isPlainObject v = .ok true)
    (hm : mergeEntries (entriesJS cur) (entriesJS v) = .ok mv) :
    mergeEntries m ((k, v) :: rest) = mergeEntries (insertField m k (JValue.obj mv)) rest := by
  rw [mergeEntries.eq_def]; simp only [h, hc, hm]
  split <;> simp_all

theorem lookupField_insertField_self (m : List (String × JValue)) (k : String) (v : JValue) :
    lookupField (insertField m k v) k = some v := by
  induction m with
  | nil => simp [insertField, lookupField]
  | cons p rest ih =>
    obtain ⟨k0, v0⟩ := p
    by_cases h : k0 = k
    · subst h; simp [insertField, lookupField]
    · simp [insertField, lookupField, h, ih]

theorem lookupField_insertField_ne {key k : String} (m : List (String × JValue)) (v : JValue)
    (h : key ≠ k) : lookupField (insertField m key v) k = lookupField m k := by
  have h2 : (key == k) = false := by simp [h]
  induction m with
  | nil => simp [insertField, lookupField, h2]
  | cons p rest ih =>
    obtain ⟨k0, v0⟩ := p
    by_cases h0 : k0 = key
    · subst h0
      simp [insertField, lookupField, h2]
    · simp [insertField, lookupField, h0, ih]

theorem lookupField_insertField_isSome (m : List (String × JValue)) (key k : String)
    (v : JValue) :
    (lookupField (insertField m key v) k).isSome
      = ((lookupField m k).isSome || k == key) := by
  by_cases h : key = k
  · subst h; simp [lookupField_insertField_self]
  · have h2 : (k == key) = false := by simp [Ne.symm h]
    rw [lookupField_insertField_ne m v h, h2]
    simp

theorem mergeEntries_lookup_of_not_mem (m l : List (String × JValue)) (k : String) :
    ∀ m2, mergeEntries m l = .ok m2 → (∀ p ∈ l, p.1 ≠ k) →
      lookupField m2 k = lookupField m k := by
  induction m, l using mergeEntries.induct with
  | case1 m =>
    intro m2 hok _
    rw [mergeEntries_nil] at hok
    cases hok; rfl
  | case2 m k0 v rest hlook ih =>
    intro m2 hok hk
    rw [mergeEntries_cons_none v rest hlook] at hok
    rw [ih m2 hok (fun p hp => hk p (List.mem_cons_of_mem _ hp))]
    exact lookupField_insertField_ne m v (hk (k0, v) (List.mem_cons_self _ _))
  | case3 m k0 v rest cur hlook e he =>
    intro m2 hok _
    rw [mergeEntries_cons_curErr v rest hlook he] at hok
    cases hok
  | case4 m k0 v rest cur hlook hc ih =>
    intro m2 hok hk
    rw [mergeEntries_cons_curFalse v rest hlook hc] at hok
    rw [ih m2 hok (fun p hp => hk p (List.mem_cons_of_mem _ hp))]
    exact lookupField_insertField_ne m v (hk (k0, v) (List.mem_cons_self _ _))
  | case5 m k0 v rest cur hlook hc e hv =>
    intro m2 hok _
    rw [mergeEntries_cons_valErr rest hlook hc hv] at hok
    cases hok
  | case6 m k0 v rest cur hlook hc hv ih =>
    intro m2 hok hk
    rw [mergeEntries_cons_valFalse rest hlook hc hv] at hok
    rw [ih m2 hok (fun p hp => hk p (List.mem_cons_of_mem _ hp))]
    exact lookupField_insertField_ne m v (hk (k0, v) (List.mem_cons_self _ _))
  | case7 m k0 v rest cur hlook hc hv e hm ih =>
    intro m2 hok _
    rw [mergeEntries_cons_recErr rest hlook hc hv hm] at hok
    cases hok
  | case8 m k0 v rest cur hlook hc hv mv hm ih1 ih2 =>
    intro m2 hok hk
    rw [mergeEntries_cons_rec rest hlook hc hv hm] at hok
    rw [ih2 m2 hok (fun p hp => hk p (List.mem_cons_of_mem _ hp))]
    exact lookupField_insertField_ne m _ (hk (k0, v) (List.mem_cons_self _ _))

theorem mergeEntries_lookup_isSome (m l : List (String × JValue)) (k : String) :
    ∀ m2, mergeEntries m l = .ok m2 →
      ((lookupField m2 k).isSome ↔ (lookupField m k).isSome ∨ ∃ v, (k, v) ∈ l) := by
  induction m, l using mergeEntries.induct with
  | case1 m =>
    intro m2 hok
    rw [mergeEntries_nil] at hok
    cases hok; simp
  | case2 m k0 v rest hlook ih =>
    intro m2 hok
    rw [mergeEntries_cons_none v rest hlook] at hok
    rw [ih m2 hok]
    simp only [lookupField_insertField_isSome, Bool.or_eq_true, beq_iff_eq, List.mem_cons,
      Prod.mk.injEq]
    constructor
    · rintro (⟨h | h⟩ | ⟨w, hw⟩)
      · exact Or.inl h
      · exact Or.inr ⟨v, Or.inl ⟨h, rfl⟩⟩
      · exact Or.inr ⟨w, Or.inr hw⟩
    · rintro (h | ⟨w, ⟨hk, _⟩ | hw⟩)
      · exact Or.inl (Or.inl h)
      · exact Or.inl (Or.inr hk)
      · exact Or.inr ⟨w, hw⟩
  | case3 m k0 v rest cur hlook e he =>
    intro m2 hok
    rw [mergeEntries_cons_curErr v rest hlook he] at hok
    cases hok
  | case4 m k0 v rest cur hlook hc ih =>
    intro m2 hok
    rw [mergeEntries_cons_curFalse v rest hlook hc] at hok
    rw [ih m2 hok]
    simp only [lookupField_insertField_isSome, Bool.or_eq_true, beq_iff_eq, List.mem_cons,
      Prod.mk.injEq]
    constructor
    · rintro (⟨h | h⟩ | ⟨w, hw⟩)
      · exact Or.inl h
      · exact Or.inr ⟨v, Or.inl ⟨h, rfl⟩⟩
      · exact Or.inr ⟨w, Or.inr hw⟩
    · rintro (h | ⟨w, ⟨hk, _⟩ | hw⟩)
      · exact Or.inl (Or.inl h)
      · exact Or.inl (Or.inr hk)
      · exact Or.inr ⟨w, hw⟩
  | case5 m k0 v rest cur hlook hc e hv =>
    intro m2 hok
    rw [mergeEntries_cons_valErr rest hlook hc hv] at hok
    cases hok
  | case6 m k0 v rest cur hlook hc hv ih =>
    intro m2 hok
    rw [mergeEntries_cons_valFalse rest hlook hc hv] at hok
    rw [ih m2 hok]
    simp only [lookupField_insertField_isSome, Bool.or_eq_true, beq_iff_eq, List.mem_cons,
      Prod.mk.injEq]
    constructor
    · rintro (⟨h | h⟩ | ⟨w, hw⟩)
      · exact Or.inl h
      · exact Or.inr ⟨v, Or.inl ⟨h, rfl⟩⟩
      · exact Or.inr ⟨w, Or.inr hw⟩
    · rintro (h | ⟨w, ⟨hk, _⟩ | hw⟩)
      · exact Or.inl (Or.inl h)
      · exact Or.inl (Or.inr hk)
      · exact Or.inr ⟨w, hw⟩
  | case7 m k0 v rest cur hlook hc hv e hm ih =>
    intro m2 hok
    rw [mergeEntries_cons_recErr rest hlook hc hv hm] at hok
    cases hok
  | case8 m k0 v rest cur hlook hc hv mv hm ih1 ih2 =>
    intro m2 hok
    rw [mergeEntries_cons_rec rest hlook hc hv hm] at hok
    rw [ih2 m2 hok]
    simp only [lookupField_insertField_isSome, Bool.or_eq_true, beq_iff_eq, List.mem_cons,
      Prod.mk.injEq]
    constructor
    · rintro (⟨h | h⟩ | ⟨w, hw⟩)
      · exact Or.inl h
      · exact Or.inr ⟨v, Or.inl ⟨h, rfl⟩⟩
      · exact Or.inr ⟨w, Or.inr hw⟩
    · rintro (h | ⟨w, ⟨hk, _⟩ | hw⟩)
      · exact Or.inl (Or.inl h)
      · exact Or.inl (Or.inr hk)
      · exact Or.inr ⟨w, hw⟩

theorem mergeEntries_lookup_of_mem (m l : List (String × JValue)) :
    ∀ m2 k v, mergeEntries m l = .ok m2 → (l.map Prod.fst).Nodup → (k, v) ∈ l →
      (∃ cur mv, lookupField m k = some cur ∧ isPlainObject cur = .ok true ∧
        isPlainObject v = .ok true ∧ mergeEntries (entriesJS cur) (entriesJS v) = .ok mv ∧
        lookupField m2 k = some (JValue.obj mv))
      ∨ ((¬ ∃ cur, lookupField m k = some cur ∧ isPlainObject cur = .ok true ∧
          isPlainObject v = .ok true) ∧ lookupField m2 k = some v) := by
  induction m, l using mergeEntries.induct with
  | case1 m =>
    intro m2 k v _ _ hmem
    simp at hmem
  | case2 m k0 v0 rest hlook ih =>
    intro m2 k v hok hnd hmem
    rw [mergeEntries_cons_none v0 rest hlook] at hok
    rw [List.map_cons, List.nodup_cons] at hnd
    obtain ⟨hnotin, hnd2⟩ := hnd
    rcases List.mem_cons.mp hmem with heq | hmem2
    · simp only [Prod.mk.injEq] at heq
      obtain ⟨rfl, rfl⟩ := heq
      have hfinal : lookupField m2 k = some v := by
        rw [mergeEntries_lookup_of_not_mem _ _ k m2 hok
          (fun p hp hpe => hnotin (List.mem_map.mpr ⟨p, hp, hpe⟩))]
        exact lookupField_insertField_self m k v
      refine Or.inr ⟨?_, hfinal⟩
      rintro ⟨cur, hcur, -⟩
      rw [hlook] at hcur
      cases hcur
    · have hne : k0 ≠ k := fun he =>
        hnotin (List.mem_map.mpr ⟨(k, v), hmem2, he.symm⟩)
      have := ih m2 k v hok hnd2 hmem2
      rwa [lookupField_insertField_ne m v0 hne] at this
  | case3 m k0 v0 rest cur hlook e he =>
    intro m2 k v hok _ _
    rw [mergeEntries_cons_curErr v0 rest hlook he] at hok
    cases hok
  | case4 m k0 v0 rest cur hlook hc ih =>
    intro m2 k v hok hnd hmem
    rw [mergeEntries_cons_curFalse v0 rest hlook hc] at hok
    rw [List.map_cons, List.nodup_cons] at hnd
    obtain ⟨hnotin, hnd2⟩ := hnd
    rcases List.mem_cons.mp hmem with heq | hmem2
    · simp only [Prod.mk.injEq] at heq
      obtain ⟨rfl, rfl⟩ := heq
      have hfinal : lookupField m2 k = some v := by
        rw [mergeEntries_lookup_of_not_mem _ _ k m2 hok
          (fun p hp hpe => hnotin (List.mem_map.mpr ⟨p, hp, hpe⟩))]
        exact lookupField_insertField_self m k v
      refine Or.inr ⟨?_, hfinal⟩
      rintro ⟨cur2, hcur2, hpl, -⟩
      rw [hlook] at hcur2
      cases hcur2
      simp [hc] at hpl
    · have hne : k0 ≠ k := fun he =>
        hnotin (List.mem_map.mpr ⟨(k, v), hmem2, he.symm⟩)
      have := ih m2 k v hok hnd2 hmem2
      rwa [lookupField_insertField_ne m v0 hne] at this
  | case5 m k0 v0 rest cur hlook hc e hv =>
    intro m2 k v hok _ _
    rw [mergeEntries_cons_valErr rest hlook hc hv] at hok
    cases hok
  | case6 m k0 v0 rest cur hlook hc hv ih =>
    intro m2 k v hok hnd hmem
    rw [mergeEntries_cons_valFalse rest hlook hc hv] at hok
    rw [List.map_cons, List.nodup_cons] at hnd
    obtain ⟨hnotin, hnd2⟩ := hnd
    rcases List.mem_cons.mp hmem with heq | hmem2
    · simp only [Prod.mk.injEq] at heq
      obtain ⟨rfl, rfl⟩ := heq
      have hfinal : lookupField m2 k = some v := by
        rw [mergeEntries_lookup_of_not_mem _ _ k m2 hok
          (fun p hp hpe => hnotin (List.mem_map.mpr ⟨p, hp, hpe⟩))]
        exact lookupField_insertField_self m k v
      refine Or.inr ⟨?_, hfinal⟩
      rintro ⟨cur2, hcur2, -, hplv⟩
      rw [hv] at hplv
      cases hplv
    · have hne : k0 ≠ k := fun he =>
        hnotin (List.mem_map.mpr ⟨(k, v), hmem2, he.symm⟩)
      have := ih m2 k v hok hnd2 hmem2
      rwa [lookupField_insertField_ne m v0 hne] at this
  | case7 m k0 v0 rest cur hlook hc hv e hm ih =>
    intro m2 k v hok _ _
    rw [mergeEntries_cons_recErr rest hlook hc hv hm] at hok
    cases hok
  | case8 m k0 v0 rest cur hlook hc hv mv hm ih1 ih2 =>
    intro m2 k v hok hnd hmem
    rw [mergeEntries_cons_rec rest hlook hc hv hm] at hok
    rw [List.map_cons, List.nodup_cons] at hnd
    obtain ⟨hnotin, hnd2⟩ := hnd
    rcases List.mem_cons.mp hmem with heq | hmem2
    · simp only [Prod.mk.injEq] at heq
      obtain ⟨rfl, rfl⟩ := heq
      have hfinal : lookupField m2 k = some (JValue.obj mv) := by
        rw [mergeEntries_lookup_of_not_mem _ _ k m2 hok
          (fun p hp hpe => hnotin (List.mem_map.mpr ⟨p, hp, hpe⟩))]
        exact lookupField_insertField_self m k (JValue.obj mv)
      exact Or.inl ⟨cur, mv, hlook, hc, hv, hm, hfinal⟩
    · have hne : k0 ≠ k := fun he =>
        hnotin (List.mem_map.mpr ⟨(k, v), hmem2, he.symm⟩)
      have := ih2 m2 k v hok hnd2 hmem2
      rwa [lookupField_insertField_ne m (JValue.obj mv) hne] at this

mutual

/-- A value is null-prototype-free: it contains no `nullProtoObj` anywhere,
so every nested `toString` call is callable. -/
def goodJS : JValue → Bool
  | .prim _ => true
  | .str _ => true
  | .arr xs => goodListJS xs
  | .obj fs => goodFieldsJS fs
  | .reactElem fs => goodFieldsJS fs
  | .nullProtoObj _ => false
  | .weirdObj _ fs => goodFieldsJS fs

/-- Every element of the list is null-prototype-free. -/
def goodListJS : List JValue → Bool
  | [] => true
  | v :: rest => goodJS v && goodListJS rest

/-- Every value of the field list is null-prototype-free. -/
def goodFieldsJS : List (String × JValue) → Bool
  | [] => true
  | p :: rest => goodJS p.2 && goodFieldsJS rest

end

mutual

theorem toStringJS_ok_of_good : ∀ (v : JValue), goodJS v = true → ∃ s, toStringJS v = .ok s
  | .prim n, _ => ⟨toString n, by simp [toStringJS]⟩
  | .str s, _ => ⟨s, by simp [toStringJS]⟩
  | .arr xs, h => by
    obtain ⟨l, hl⟩ := toStringListJS_ok_of_good xs (by simpa [goodJS] using h)
    exact ⟨String.intercalate "," l, by simp [toStringJS, hl, Except.map]⟩
  | .obj fs, _ => ⟨"[object Object]", by simp [toStringJS]⟩
  | .reactElem fs, _ => ⟨"[object Object]", by simp [toStringJS]⟩
  | .nullProtoObj fs, h => by simp [goodJS] at h
  | .weirdObj s fs, _ => ⟨s, by simp [toStringJS]⟩

theorem toStringListJS_ok_of_good :
    ∀ (xs : List JValue), goodListJS xs = true → ∃ l, toStringListJS xs = .ok l
  | [], _ => ⟨[], by simp [toStringListJS]⟩
  | v :: rest, h => by
    rw [goodListJS, Bool.and_eq_true] at h
    obtain ⟨s, hs⟩ := toStringJS_ok_of_good v h.1
    obtain ⟨l, hl⟩ := toStringListJS_ok_of_good rest h.2
    exact ⟨s :: l, by simp [toStringListJS, hs, hl]⟩

end

theorem isPlainObject_ok_of_good (v : JValue) (h : goodJS v = true) :
    ∃ b, isPlainObject v = .ok b := by
  cases v with
  | arr xs =>
    obtain ⟨s, hs⟩ := toStringJS_ok_of_good (.arr xs) h
    exact ⟨s == "[object Object]", by simp [isPlainObject, hs, Except.map]⟩
  | prim n => exact ⟨false, by simp [isPlainObject]⟩
  | str s => exact ⟨false, by simp [isPlainObject]⟩
  | obj fs => exact ⟨true, by simp [isPlainObject]⟩
  | reactElem fs => exact ⟨false, by simp [isPlainObject]⟩
  | nullProtoObj fs => simp [goodJS] at h
  | weirdObj s fs => exact ⟨s == "[object Object]", by simp [isPlainObject]⟩

theorem goodFieldsJS_entriesJS {v : JValue} (h : goodJS v = true) :
    goodFieldsJS (entriesJS v) = true := by
  cases v with
  | prim n => simp [entriesJS, goodFieldsJS]
  | str s =>
    rw [entriesJS, strEntries, List.enum]
    have : ∀ (cs : List Char) (n : Nat),
        goodFieldsJS ((cs.enumFrom n).map
          (fun p => (toString p.1, JValue.str (String.singleton p.2)))) = true := by
      intro cs
      induction cs with
      | nil => intro n; simp [goodFieldsJS]
      | cons c cs ih =>
        intro n
        simp only [List.enumFrom, List.map, goodFieldsJS, Bool.and_eq_true, ih]
        exact ⟨by rw [goodJS], trivial⟩
    exact this s.data 0
  | arr xs =>
    rw [entriesJS, arrEntries, List.enum]
    rw [goodJS] at h
    revert h
    have : ∀ (ys : List JValue) (n : Nat), goodListJS ys = true →
        goodFieldsJS ((ys.enumFrom n).map (fun p => (toString p.1, p.2))) = true := by
      intro ys
      induction ys with
      | nil => intro n _; simp [goodFieldsJS]
      | cons y ys ih =>
        intro n hy
        rw [goodListJS, Bool.and_eq_true] at hy
        simp only [List.enumFrom, List.map, goodFieldsJS, Bool.and_eq_true]
        exact ⟨hy.1, ih _ hy.2⟩
    exact this xs 0
  | obj fs => rw [entriesJS]; rw [goodJS] at h; exact h
  | reactElem fs => rw [entriesJS]; rw [goodJS] at h; exact h
  | nullProtoObj fs => simp [goodJS] at h
  | weirdObj s fs => rw [entriesJS]; rw [goodJS] at h; exact h

theorem goodJS_of_lookupField {m : List (String × JValue)} (h : goodFieldsJS m = true)
    {k : String} {cur : JValue} (hl : lookupField m k = some cur) : goodJS cur = true := by
  induction m with
  | nil => simp [lookupField] at hl
  | cons p rest ih =>
    rw [goodFieldsJS, Bool.and_eq_true] at h
    obtain ⟨k0, v0⟩ := p
    rw [lookupField] at hl
    by_cases hk : k0 == k
    · rw [if_pos hk] at hl
      cases hl
      exact h.1
    · rw [if_neg hk] at hl
      exact ih h.2 hl

theorem goodFieldsJS_insertField {m : List (String × JValue)} (h : goodFieldsJS m = true)
    {v : JValue} (hv : goodJS v = true) (k : String) :
    goodFieldsJS (insertField m k v) = true := by
  induction m with
  | nil => simp [insertField, goodFieldsJS, hv]
  | cons p rest ih =>
    rw [goodFieldsJS, Bool.and_eq_true] at h
    obtain ⟨k0, v0⟩ := p
    rw [insertField]
    by_cases hk : k0 == k
    · rw [if_pos hk, goodFieldsJS, Bool.and_eq_true]
      exact ⟨hv, h.2⟩
    · rw [if_neg hk, goodFieldsJS, Bool.and_eq_true]
      exact ⟨h.1, ih h.2⟩

theorem mergeEntries_ok_of_good (m l : List (String × JValue)) :
    goodFieldsJS m = true → goodFieldsJS l = true →
      ∃ m2, mergeEntries m l = .ok m2 ∧ goodFieldsJS m2 = true := by
  induction m, l using mergeEntries.induct with
  | case1 m =>
    intro hm _
    exact ⟨m, mergeEntries_nil m, hm⟩
  | case2 m k0 v rest hlook ih =>
    intro hm hl
    rw [goodFieldsJS, Bool.and_eq_true] at hl
    obtain ⟨m2, hok, hg⟩ := ih (goodFieldsJS_insertField hm hl.1 k0) hl.2
    exact ⟨m2, by rw [mergeEntries_cons_none v rest hlook]; exact hok, hg⟩
  | case3 m k0 v rest cur hlook e he =>
    intro hm _
    obtain ⟨b, hb⟩ := isPlainObject_ok_of_good cur (goodJS_of_lookupField hm hlook)
    rw [he] at hb
    cases hb
  | case4 m k0 v rest cur hlook hc ih =>
    intro hm hl
    rw [goodFieldsJS, Bool.and_eq_true] at hl
    obtain ⟨m2, hok, hg⟩ := ih (goodFieldsJS_insertField hm hl.1 k0) hl.2
    exact ⟨m2, by rw [mergeEntries_cons_curFalse v rest hlook hc]; exact hok, hg⟩
  | case5 m k0 v rest cur hlook hc e hv =>
    intro _ hl
    rw [goodFieldsJS, Bool.and_eq_true] at hl
    obtain ⟨b, hb⟩ := isPlainObject_ok_of_good v hl.1
    rw [hv] at hb
    cases hb
  | case6 m k0 v rest cur hlook hc hv ih =>
    intro hm hl
    rw [goodFieldsJS, Bool.and_eq_true] at hl
    obtain ⟨m2, hok, hg⟩ := ih (goodFieldsJS_insertField hm hl.1 k0) hl.2
    exact ⟨m2, by rw [mergeEntries_cons_valFalse rest hlook hc hv]; exact hok, hg⟩
  | case7 m k0 v rest cur hlook hc hv e hm2 ih1 =>
    intro hm hl
    rw [goodFieldsJS, Bool.and_eq_true] at hl
    obtain ⟨mi, hoki, _⟩ := ih1
      (goodFieldsJS_entriesJS (goodJS_of_lookupField hm hlook))
      (goodFieldsJS_entriesJS hl.1)
    rw [hm2] at hoki
    cases hoki
  | case8 m k0 v rest cur hlook hc hv mv hm2 ih1 ih2 =>
    intro hm hl
    rw [goodFieldsJS, Bool.and_eq_true] at hl
    obtain ⟨mi, hoki, hgi⟩ := ih1
      (goodFieldsJS_entriesJS (goodJS_of_lookupField hm hlook))
      (goodFieldsJS_entriesJS hl.1)
    rw [hm2] at hoki
    cases hoki
    have hobj : goodJS (JValue.obj mv) = true := by rw [goodJS]; exact hgi
    obtain ⟨m2, hok, hg⟩ := ih2 (goodFieldsJS_insertField hm hobj k0) hl.2
    exact ⟨m2, by rw [mergeEntries_cons_rec rest hlook hc hv hm2]; exact hok, hg⟩

/-- Claim C3: `merge` with an absent `user` returns a shallow copy of
`defaults`; with a `user` object the result keys are the union of the two
key sets; for each key of `user`, if the value currently merged at that
key and the user value are both plain objects the merge recurses on them,
and otherwise the user value replaces the merged value wholesale; and
`merge({a:1, b:{x:1, y:2}}, {b:{y:3, z:4}})` equals
`{a:1, b:{x:1, y:3, z:4}}`. -/
theorem merge_rule_c3 (dfs ufs m2 : List (String × JValue))
    (hnodup : (ufs.map Prod.fst).Nodup)
    (hok : mergeEntries dfs ufs = .ok m2) :
    merge (.obj dfs) none = .ok (.obj dfs)
    ∧ merge (.obj dfs) (some (.obj ufs)) = .ok (.obj m2)
    ∧ (∀ k, (lookupField m2 k).isSome ↔ ((lookupField dfs k).isSome ∨ ∃ v, (k, v) ∈ ufs))
    ∧ (∀ k v, (k, v) ∈ ufs →
        (∃ cur mv, lookupField dfs k = some cur ∧ isPlainObject cur = .ok true ∧
          isPlainObject v = .ok true ∧ mergeEntries (entriesJS cur) (entriesJS v) = .ok mv ∧
          lookupField m2 k = some (.obj mv))
        ∨ ((¬ ∃ cur, lookupField dfs k = some cur ∧ isPlainObject cur = .ok true ∧
            isPlainObject v = .ok true) ∧ lookupField m2 k = some v))
    ∧ merge (.obj [("a", .prim 1), ("b", .obj [("x", .prim 1), ("y", .prim 2)])])
        (some (.obj [("b", .obj [("y", .prim 3), ("z", .prim 4)])]))
        = .ok (.obj [("a", .prim 1),
            ("b", .obj [("x", .prim 1), ("y", .prim 3), ("z", .prim 4)])]) := by
  refine ⟨by simp [merge, falsyJS, entriesJS], ?_, ?_, ?_, ?_⟩
  · simp [merge, falsyJS, entriesJS, hok, Except.map]
  · intro k
    exact mergeEntries_lookup_isSome dfs ufs k m2 hok
  · intro k v hmem
    exact mergeEntries_lookup_of_mem dfs ufs m2 k v hok hnodup hmem
  · simp [merge, falsyJS, entriesJS, mergeEntries, lookupField, insertField, isPlainObject,
      Except.map]

theorem merge_rule_c3_witness :
    (((([("b", JValue.prim 2)] : List (String × JValue)).map Prod.fst).Nodup
        ∧ mergeEntries [("a", JValue.prim 1)] [("b", JValue.prim 2)]
            = .ok [("a", JValue.prim 1), ("b", JValue.prim 2)])
      ∧ (merge (.obj [("a", JValue.prim 1)]) none = .ok (.obj [("a", JValue.prim 1)])
        ∧ merge (.obj [("a", JValue.prim 1)]) (some (.obj [("b", JValue.prim 2)]))
            = .ok (.obj [("a", JValue.prim 1), ("b", JValue.prim 2)])
        ∧ (∀ k, (lookupField [("a", JValue.prim 1), ("b", JValue.prim 2)] k).isSome
            ↔ ((lookupField [("a", JValue.prim 1)] k).isSome
                ∨ ∃ v, (k, v) ∈ ([("b", JValue.prim 2)] : List (String × JValue))))
        ∧ (∀ k v, (k, v) ∈ ([("b", JValue.prim 2)] : List (String × JValue)) →
            (∃ cur mv, lookupField [("a", JValue.prim 1)] k = some cur
              ∧ isPlainObject cur = .ok true ∧ isPlainObject v = .ok true
              ∧ mergeEntries (entriesJS cur) (entriesJS v) = .ok mv
              ∧ lookupField [("a", JValue.prim 1), ("b", JValue.prim 2)] k
                  = some (.obj mv))
            ∨ ((¬ ∃ cur, lookupField [("a", JValue.prim 1)] k = some cur
                ∧ isPlainObject cur = .ok true ∧ isPlainObject v = .ok true)
              ∧ lookupField [("a", JValue.prim 1), ("b", JValue.prim 2)] k = some v))
        ∧ merge (.obj [("a", .prim 1), ("b", .obj [("x", .prim 1), ("y", .prim 2)])])
            (some (.obj [("b", .obj [("y", .prim 3), ("z", .prim 4)])]))
            = .ok (.obj [("a", .prim 1),
                ("b", .obj [("x", .prim 1), ("y", .prim 3), ("z", .prim 4)])]))) :=
  ⟨⟨by simp, by simp [mergeEntries, lookupField, insertField]⟩,
    merge_rule_c3 [("a", JValue.prim 1)] [("b", JValue.prim 2)]
      [("a", JValue.prim 1), ("b", JValue.prim 2)] (by simp)
      (by simp [mergeEntries, lookupField, insertField])⟩

/-- Claim C5 (amended): `merge` and `isPlainObject` return a result on
every pair of values that contain no null-prototype object — arrays,
react-marked values and objects with an overridden (but callable)
`toString` included.  As stated the claim is false: `isPlainObject` calls
`obj.toString()`, which throws on an object with an absent `toString`
(null prototype), and `merge` propagates that throw (see the
counterexample). -/
theorem merge_total_c5 (d : JValue) (u : Option JValue)
    (hd : goodJS d = true) (hu : ∀ uv, u = some uv → goodJS uv = true) :
    (∃ r, merge d u = .ok r) ∧ (∃ b, isPlainObject d = .ok b) := by
  refine ⟨?_, isPlainObject_ok_of_good d hd⟩
  by_cases hf : falsyJS u
  · exact ⟨.obj (entriesJS d), by simp [merge, hf]⟩
  · match u with
    | none => simp [falsyJS] at hf
    | some uv =>
      obtain ⟨m2, hok, _⟩ := mergeEntries_ok_of_good (entriesJS d) (entriesJS uv)
        (goodFieldsJS_entriesJS hd) (goodFieldsJS_entriesJS (hu uv rfl))
      exact ⟨.obj m2, by simp [merge, hf, hok, Except.map]⟩

theorem merge_total_c5_witness :
    ((goodJS (JValue.obj [("a", JValue.arr [JValue.prim 1])]) = true
        ∧ ∀ uv, (some (JValue.obj [("a", JValue.prim 2)]) : Option JValue) = some uv →
            goodJS uv = true)
      ∧ ((∃ r, merge (JValue.obj [("a", JValue.arr [JValue.prim 1])])
            (some (JValue.obj [("a", JValue.prim 2)])) = .ok r)
        ∧ (∃ b, isPlainObject (JValue.obj [("a", JValue.arr [JValue.prim 1])]) = .ok b))) :=
  ⟨⟨by simp [goodJS, goodFieldsJS, goodListJS],
      fun uv h => by cases h; simp [goodJS, goodFieldsJS]⟩,
    merge_total_c5 (JValue.obj [("a", JValue.arr [JValue.prim 1])])
      (some (JValue.obj [("a", JValue.prim 2)]))
      (by simp [goodJS, goodFieldsJS, goodListJS])
      (fun uv h => by cases h; simp [goodJS, goodFieldsJS])⟩

/-- Counterexample to claim C5 as stated: `isPlainObject` throws on a
null-prototype object (its `toString` is absent), and `merge` of two
objects whose common key holds a plain object on the defaults side and a
null-prototype object on the user side throws as well, so neither
function is total. -/
theorem merge_total_c5_counterexample :
    isPlainObject (.nullProtoObj []) = .error ()
    ∧ merge (.obj [("a", .obj [])]) (some (.obj [("a", .nullProtoObj [])])) = .error () := by
  constructor
  · simp [isPlainObject]
  · simp [merge, falsyJS, entriesJS, mergeEntries, lookupField, isPlainObject, Except.map]

/-- Model of a hierarchical WHATWG URL as the import-map code uses it:
a scheme, a host, and the path segments after the host (a final empty
segment encodes a trailing slash).  Query, fragment, port and userinfo do
not occur in this code and are not modelled. -/
structure JSUrl where
  scheme : String
  host : String
  segs : List String
deriving DecidableEq

/-- Serialization of a URL, as `URL.prototype.href` renders it. -/
def JSUrl.href (u : JSUrl) : String :=
  u.scheme ++ "://" ++ u.host ++ "/" ++ String.intercalate "/" u.segs

/-- Split of a character list on every occurrence of `c` (the character
list analogue of `String.split`). -/
def splitOnChar (c : Char) : List Char → List (List Char)
  | [] => [[]]
  | x :: rest =>
    if x = c then [] :: splitOnChar c rest
    else
      match splitOnChar c rest with
      | [] => [[x]]
      | l :: ls => (x :: l) :: ls

/-- Split of a character list at the first `:`, into the part before and
the part after; `none` when there is no colon. -/
def breakColon : List Char → Option (List Char × List Char)
  | [] => none
  | c :: rest =>
    if c = ':' then some ([], rest)
    else
      match breakColon rest with
      | none => none
      | some (pre, post) => some (c :: pre, post)

/-- A character allowed in a URL scheme. -/
def isSchemeChar (c : Char) : Bool :=
  c.isAlpha || c.isDigit || c == '+' || c == '-' || c == '.'

/-- Parse of an absolute hierarchical `scheme://host/segs` URL string
(the scheme runs to the first colon, as in the WHATWG parser); `none` for
a relative reference.  Non-hierarchical schemes (`data:`, `mailto:`) do
not occur in this code and are not modelled. -/
def parseAbsolute (s : String) : Option JSUrl :=
  match breakColon s.data with
  | none => none
  | some (scheme, rest) =>
    if scheme.isEmpty || !scheme.all isSchemeChar then none
    else
      match rest with
      | '/' :: '/' :: hp =>
        match splitOnChar '/' hp with
        | [] => none
        | host :: segs => some ⟨String.mk scheme, String.mk host, segs.map String.mk⟩
      | _ => none

/-- Path-merge step of URL resolution: walk the reference's segments over
an accumulated path, where `.` keeps the directory, `..` pops one segment,
and a trailing `.` or `..` leaves a trailing slash. -/
def applyRelSegs (acc : List String) : List String → List String
  | [] => acc
  | ["."] => acc ++ [""]
  | [".."] => acc.dropLast ++ [""]
  | "." :: rest => applyRelSegs acc rest
  | ".." :: rest => applyRelSegs acc.dropLast rest
  | s :: rest => applyRelSegs (acc ++ [s]) rest

/-- Resolution of a relative reference against a base URL: an empty
reference yields the base, a root-relative reference starts from `/`, and
every other reference replaces the base's last segment and merges dot
segments. -/
def resolveRel (r : String) (base : JSUrl) : JSUrl :=
  match r.data with
  | [] => base
  | '/' :: rest =>
    { base with segs := applyRelSegs [] ((splitOnChar '/' rest).map String.mk) }
  | _ =>
    { base with
      segs := applyRelSegs base.segs.dropLast ((splitOnChar '/' r.data).map String.mk) }

/-- Model of `new URL(url, baseUrl).href`, the URL-resolution rule the
resolver relies on: an absolute URL resolves to itself, a relative one is
resolved against the base. -/
def resolveURLStr (r : String) (base : JSUrl) : String :=
  match parseAbsolute r with
  | some u => u.href
  | none => (resolveRel r base).href

/-- A specifier map, `Record(specifier → URL string)`, in insertion
order. -/
abbrev SpecifierMap := List (String × String)

/-- The `ImportMap` shape of core/utils.ts: `imports` plus optional
`scopes`. -/
structure ImportMap where
  imports : SpecifierMap
  scopes : Option (List (String × SpecifierMap))
deriving DecidableEq

/-- Embedding of `resolveSpecifierMap` (core/utils.ts lines 247-251).
The source assigns `specifierMap[specifier] = new URL(url, baseUrl).href`
for every entry, mutating the caller's object in place; the returned list
is the post-call state of that same object. -/
def resolveSpecifierMap (m : SpecifierMap) (baseUrl : JSUrl) : SpecifierMap :=
  m.map (fun p => (p.1, resolveURLStr p.2 baseUrl))

/-- Embedding of `resolveImportMap` (core/utils.ts lines 257-265): resolve
the `imports` map and each scope's map.  The source mutates `importMap` in
place (it returns `void`); the returned value is the post-call state of
the caller's map. -/
def resolveImportMap (im : ImportMap) (baseUrl : JSUrl) : ImportMap :=
  { imports := resolveSpecifierMap im.imports baseUrl,
    scopes := im.scopes.map
      (fun sc => sc.map (fun p => (p.1, resolveSpecifierMap p.2 baseUrl))) }

/-- Property read on a specifier map. -/
def lookupSpec : SpecifierMap → String → Option String
  | [], _ => none
  | (k, v) :: rest, key => if k == key then some v else lookupSpec rest key

/-- JavaScript object spread `{...a, ...b}`: `a`'s keys in order with
`b`'s value where the key collides, then `b`'s new keys in order. -/
def overlaySpec (a b : SpecifierMap) : SpecifierMap :=
  a.map (fun p => (p.1, (lookupSpec b p.1).getD p.2))
    ++ b.filter (fun p => (lookupSpec a p.1).isNone)

/-- The three fixed self-referencing entries of the tool's own canonical
map (core/utils.ts lines 272-278), relative to the module root
`base` (the source's `baseUrl = new URL("../", import.meta.url)`). -/
def canonicalImports (base : JSUrl) : SpecifierMap :=
  [("lume", resolveURLStr "./mod.ts" base),
   ("lume/", resolveURLStr "./" base),
   ("https://deno.land/x/lume/", resolveURLStr "./" base)]

/-- Embedding of `getImportMap(userMap?, url?)` (core/utils.ts lines
271-290), parametrised by the module-root URL `base`.  The first
component is the returned map; the second is the post-call state of the
caller's `userMap` object (which `resolveImportMap` mutates in place when
`url` is given). -/
def getImportMap (base : JSUrl) (userMap : Option ImportMap) (url : Option JSUrl) :
    ImportMap × Option ImportMap :=
  let map : ImportMap := { imports := canonicalImports base, scopes := none }
  match userMap with
  | none => (map, none)
  | some um =>
    let um2 := match url with
      | some u => resolveImportMap um u
      | none => um
    ({ imports := overlaySpec map.imports um2.imports, scopes := um2.scopes }, some um2)

/-- The base URL of the spec's resolution example,
`https://example.com/project/`. -/
def exampleBase : JSUrl := ⟨"https", "example.com", ["project", ""]⟩

/-- A concrete module-root URL standing for the source's
`new URL("../", import.meta.url)`. -/
def exampleRoot : JSUrl := ⟨"https", "deno.land", ["x", "lume@v1.0.0", ""]⟩

theorem lookupSpec_append (a b : SpecifierMap) (k : String) :
    lookupSpec (a ++ b) k
      = match lookupSpec a k with
        | some v => some v
        | none => lookupSpec b k := by
  induction a with
  | nil => simp [lookupSpec]
  | cons p rest ih =>
    obtain ⟨k0, v0⟩ := p
    by_cases h : k0 == k
    · simp [lookupSpec, h]
    · simp only [List.cons_append, lookupSpec, if_neg h]
      exact ih

theorem lookupSpec_overlayMap (a b : SpecifierMap) (k : String) :
    lookupSpec (a.map (fun p => (p.1, (lookupSpec b p.1).getD p.2))) k
      = (lookupSpec a k).map (fun v => (lookupSpec b k).getD v) := by
  induction a with
  | nil => simp [lookupSpec]
  | cons p rest ih =>
    obtain ⟨k0, v0⟩ := p
    by_cases h : k0 == k
    · have he : k0 = k := by simpa using h
      subst he
      simp [lookupSpec, h]
    · simp only [List.map, lookupSpec, if_neg h]
      exact ih

theorem lookupSpec_filterNew (a b : SpecifierMap) (k : String) :
    lookupSpec (b.filter (fun p => (lookupSpec a p.1).isNone)) k
      = if (lookupSpec a k).isSome then none else lookupSpec b k := by
  induction b with
  | nil => simp [lookupSpec]
  | cons p rest ih =>
    obtain ⟨k0, v0⟩ := p
    by_cases h : k0 = k
    · subst h
      cases hpa : lookupSpec a k0 with
      | some w => simp [List.filter_cons, hpa, lookupSpec, ih]
      | none => simp [List.filter_cons, hpa, lookupSpec]
    · have hbeq : (k0 == k) = false := by simp [h]
      cases hpa : lookupSpec a k0 with
      | some w => simp [List.filter_cons, hpa, lookupSpec, hbeq, ih]
      | none => simp [List.filter_cons, hpa, lookupSpec, hbeq, ih]

theorem lookupSpec_overlaySpec (a b : SpecifierMap) (k : String) :
    lookupSpec (overlaySpec a b) k
      = match lookupSpec b k with
        | some v => some v
        | none => lookupSpec a k := by
  rw [overlaySpec, lookupSpec_append, lookupSpec_overlayMap, lookupSpec_filterNew]
  cases ha : lookupSpec a k <;> cases hb : lookupSpec b k <;> simp [ha, hb]

theorem mapPairs_eq_self_iff {β : Type} (g : β → β) (m : List (String × β)) :
    m.map (fun p => (p.1, g p.2)) = m ↔ ∀ p ∈ m, g p.2 = p.2 := by
  induction m with
  | nil => simp
  | cons p rest ih =>
    obtain ⟨k0, v0⟩ := p
    simp only [List.map, List.cons.injEq, Prod.mk.injEq, List.mem_cons, true_and, ih]
    constructor
    · rintro ⟨hv, hrest⟩ q hq
      rcases hq with rfl | hq
      · exact hv
      · exact hrest q hq
    · intro h
      exact ⟨h (k0, v0) (Or.inl rfl), fun q hq => h q (Or.inr hq)⟩

/-- Every specifier target of the map already resolves to itself against
`b` — the condition under which in-place resolution leaves the map
unchanged. -/
def targetsFixed (m : ImportMap) (b : JSUrl) : Prop :=
  (∀ p ∈ m.imports, resolveURLStr p.2 b = p.2)
  ∧ ∀ sc, m.scopes = some sc → ∀ q ∈ sc, ∀ p ∈ q.2, resolveURLStr p.2 b = p.2

/-- Claim C6 (amended): `resolveImportMap` is not pure — the source
rewrites the caller-supplied map's specifier targets in place, and
`getImportMap` passes the user's map to it when a `url` is given, so the
caller's map after the call equals its pre-call snapshot exactly when
every specifier target (in `imports` and in every scope) already resolves
to itself against the base URL.  As stated the claim is false: see the
counterexample, where a relative target is rewritten inside the caller's
map. -/
theorem import_map_mutation_c6 (root b : JSUrl) (m : ImportMap) :
    (resolveImportMap m b = m ↔ targetsFixed m b)
    ∧ ((getImportMap root (some m) (some b)).2 = some m ↔ targetsFixed m b) := by
  have hmain : resolveImportMap m b = m ↔ targetsFixed m b := by
    obtain ⟨imp, sco⟩ := m
    rw [targetsFixed]
    simp only [resolveImportMap, resolveSpecifierMap, ImportMap.mk.injEq]
    constructor
    · rintro ⟨h1, h2⟩
      refine ⟨(mapPairs_eq_self_iff (fun s => resolveURLStr s b) imp).mp h1, ?_⟩
      rintro sc rfl q hq p hp
      simp only [Option.map_some', Option.some.injEq] at h2
      have hq2 := (mapPairs_eq_self_iff
        (fun l => l.map (fun p => (p.1, resolveURLStr p.2 b))) sc).mp h2 q hq
      exact (mapPairs_eq_self_iff (fun s => resolveURLStr s b) q.2).mp hq2 p hp
    · rintro ⟨h1, h2⟩
      refine ⟨(mapPairs_eq_self_iff (fun s => resolveURLStr s b) imp).mpr h1, ?_⟩
      cases sco with
      | none => rfl
      | some sc =>
        simp only [Option.map_some', Option.some.injEq]
        exact (mapPairs_eq_self_iff
            (fun l => l.map (fun p => (p.1, resolveURLStr p.2 b))) sc).mpr
          (fun q hq =>
            (mapPairs_eq_self_iff (fun s => resolveURLStr s b) q.2).mpr (h2 sc rfl q hq))
  refine ⟨hmain, ?_⟩
  show some (resolveImportMap m b) = some m ↔ targetsFixed m b
  rw [Option.some_inj]
  exact hmain

/-- Counterexample to claim C6 as stated: `getImportMap` given a user map
with the single relative target `./bar.js` and a base URL leaves the
caller's map rewritten — its post-call state is not deep-equal to the
pre-call snapshot. -/
theorem import_map_mutation_c6_counterexample :
    (getImportMap exampleRoot
        (some ⟨[("foo", "./bar.js")], none⟩) (some exampleBase)).2
      ≠ some (⟨[("foo", "./bar.js")], none⟩ : ImportMap) := by
  decide

/-- Claim C8: after `resolveImportMap(map, baseUrl)` every specifier
target in `map.imports` and in each scope's mapping has been replaced by
its resolution against `baseUrl`; a well-formed absolute target resolves
to itself, and a relative target resolves to the serialization of a URL
on the base's scheme; concretely `./bar.js` against
`https://example.com/project/` gives
`https://example.com/project/bar.js` while `https://cdn/x.js` is
unchanged. -/
theorem resolveImportMap_resolves_c8 (m : ImportMap) (b : JSUrl) :
    (∀ k t, (k, t) ∈ m.imports → (k, resolveURLStr t b) ∈ (resolveImportMap m b).imports)
    ∧ (∀ sc, m.scopes = some sc → ∀ sk q, (sk, q) ∈ sc →
        ∃ sc2, (resolveImportMap m b).scopes = some sc2
          ∧ (sk, resolveSpecifierMap q b) ∈ sc2
          ∧ ∀ k t, (k, t) ∈ q → (k, resolveURLStr t b) ∈ resolveSpecifierMap q b)
    ∧ (∀ t u, parseAbsolute t = some u → JSUrl.href u = t → resolveURLStr t b = t)
    ∧ (∀ t, parseAbsolute t = none →
        (resolveRel t b).scheme = b.scheme ∧ resolveURLStr t b = (resolveRel t b).href)
    ∧ resolveImportMap ⟨[("foo", "./bar.js")], none⟩ exampleBase
        = ⟨[("foo", "https://example.com/project/bar.js")], none⟩
    ∧ resolveURLStr "https://cdn/x.js" exampleBase = "https://cdn/x.js" := by
  refine ⟨?_, ?_, ?_, ?_, by decide, by decide⟩
  · intro k t h
    exact List.mem_map.mpr ⟨(k, t), h, rfl⟩
  · intro sc hsc sk q hq
    refine ⟨sc.map (fun p => (p.1, resolveSpecifierMap p.2 b)), ?_, ?_, ?_⟩
    · simp [resolveImportMap, hsc]
    · exact List.mem_map.mpr ⟨(sk, q), hq, rfl⟩
    · intro k t h
      exact List.mem_map.mpr ⟨(k, t), h, rfl⟩
  · intro t u h1 h2
    simp only [resolveURLStr, h1]
    exact h2
  · intro t h1
    constructor
    · unfold resolveRel
      split <;> rfl
    · simp only [resolveURLStr, h1]

/-- Claim C9: `getImportMap()` with no user map returns exactly the three
fixed entries pointing at the module root and defines no scopes; with a
user map the result's imports are the canonical imports overlaid with the
user's imports where the user wins every key collision, and the result's
scopes are exactly the (resolved, when a url is given) user scopes, never
merged with canonical scopes. -/
theorem getImportMap_c9 (base uu : JSUrl) (um : ImportMap) :
    ((getImportMap base none none).1.imports
        = [("lume", resolveURLStr "./mod.ts" base),
           ("lume/", resolveURLStr "./" base),
           ("https://deno.land/x/lume/", resolveURLStr "./" base)]
      ∧ (getImportMap base none none).1.scopes = none)
    ∧ ((getImportMap base (some um) none).1.scopes = um.scopes
      ∧ ∀ k, lookupSpec (getImportMap base (some um) none).1.imports k
          = match lookupSpec um.imports k with
            | some v => some v
            | none => lookupSpec (canonicalImports base) k)
    ∧ ((getImportMap base (some um) (some uu)).2 = some (resolveImportMap um uu)
      ∧ (getImportMap base (some um) (some uu)).1.scopes = (resolveImportMap um uu).scopes
      ∧ ∀ k, lookupSpec (getImportMap base (some um) (some uu)).1.imports k
          = match lookupSpec (resolveImportMap um uu).imports k with
            | some v => some v
            | none => lookupSpec (canonicalImports base) k) := by
  refine ⟨⟨rfl, rfl⟩, ⟨rfl, ?_⟩, rfl, rfl, ?_⟩
  · intro k
    exact lookupSpec_overlaySpec (canonicalImports base) um.imports k
  · intro k
    exact lookupSpec_overlaySpec (canonicalImports base) (resolveImportMap um uu).imports k

/-- The `UpgradeInfo` record of core/utils.ts. -/
structure UpgradeInfo where
  current : String
  latest : String
  command : String
deriving DecidableEq

/-- Observable outcome of one `mustNotifyUpgrade` call: the returned
value (or the propagated network error), the post-call value of the
`lume-upgrade` localStorage key, and the number of network fetches the
call issued. -/
structure UpgradeRun where
  result : Except Unit (Option UpgradeInfo)
  store : Option String
  fetches : Nat

/-- The cache window, `1000 * 60 * 60 * 24` milliseconds (one day). -/
def expiresMs : Nat := 1000 * 60 * 60 * 24

/-- Model of JavaScript `parseInt` on the stored timestamp strings: the
value of the leading decimal-digit prefix, `none` (NaN) when there is
none, in which case the source's `NaN + expires > Date.now()` comparison
is false. -/
def parseIntJS (s : String) : Option Nat :=
  let digits := s.data.takeWhile (fun c => c.isDigit)
  if digits.isEmpty then none
  else some (digits.foldl (fun n c => n * 10 + (c.toNat - 48)) 0)

/-- The source's `current.startsWith("local ")` test: `getCurrentVersion`
returns `local (<path>)` when no `@version` tag occurs in the install
URL. -/
def isLocalVersion (s : String) : Bool :=
  "local ".data.isPrefixOf s.data

/-- The source's `current.match(/^v\d+\./)` test: a `v`, one or more
digits, then a dot. -/
def isStableVersion (current : String) : Bool :=
  match current.data with
  | 'v' :: rest =>
    let ds := rest.takeWhile (fun c => c.isDigit)
    !ds.isEmpty && (rest.drop ds.length).head? == some '.'
  | _ => false

/-- Embedding of `mustNotifyUpgrade` (core/utils.ts lines 212-241) with
its ambient effects made explicit: `current` is `getCurrentVersion()`,
`store` the prior value of `localStorage.getItem("lume-upgrade")`, `now`
is `Date.now()`, and `net` the outcome of the single network lookup
(`getLatestVersion` for a stable version, `getLatestDevelopmentVersion`
otherwise), `Except.error` when the fetch fails.  A local version returns
immediately; a fresh timestamp (truthy stored string whose parsed value
plus the window exceeds `now`) suppresses the check; otherwise the
current time is persisted before the fetch settles and the fetch outcome
(or its error) is propagated. -/
def mustNotifyUpgrade (current : String) (store : Option String) (now : Nat)
    (net : Except Unit String) : UpgradeRun :=
  if isLocalVersion current then ⟨.ok none, store, 0⟩
  else
    let stable := isStableVersion current
    let suppressed :=
      match store with
      | none => false
      | some s =>
        !s.data.isEmpty &&
          match parseIntJS s with
          | none => false
          | some t => decide (t + expiresMs > now)
    if suppressed then ⟨.ok none, store, 0⟩
    else
      let store2 := some (Nat.repr now)
      match net with
      | .error e => ⟨.error e, store2, 1⟩
      | .ok latest =>
        if current = latest then ⟨.ok none, store2, 1⟩
        else ⟨.ok (some ⟨current, latest,
            if stable then "lume upgrade" else "lume upgrade --dev"⟩), store2, 1⟩

/-- Claim C4: for a non-local current version, a stored timestamp `t`
with `now < t + 24h` yields `none`, zero fetches and an untouched store;
every call issues zero fetches (store untouched) or exactly one fetch
(store set to `now` first); a failing fetch still leaves `now` persisted
while the error propagates, so the remainder of the window is suppressed;
and a stored timestamp older than the window (e.g. 25 hours) issues
exactly one fetch. -/
theorem upgrade_cache_c4 (current : String) (store : Option String) (now : Nat)
    (net : Except Unit String) (hnl : isLocalVersion current = false) :
    (∀ s t, store = some s → s.data ≠ [] → parseIntJS s = some t → now < t + expiresMs →
        mustNotifyUpgrade current store now net = ⟨.ok none, store, 0⟩)
    ∧ (((mustNotifyUpgrade current store now net).fetches = 0
          ∧ (mustNotifyUpgrade current store now net).store = store)
        ∨ ((mustNotifyUpgrade current store now net).fetches = 1
          ∧ (mustNotifyUpgrade current store now net).store = some (Nat.repr now)))
    ∧ ((mustNotifyUpgrade current store now (.error ())).fetches = 1 →
        (mustNotifyUpgrade current store now (.error ())).store = some (Nat.repr now)
          ∧ (mustNotifyUpgrade current store now (.error ())).result = .error ())
    ∧ (∀ s t, store = some s → parseIntJS s = some t → t + expiresMs ≤ now →
        (mustNotifyUpgrade current store now net).fetches = 1) := by
  refine ⟨?_, ?_, ?_, ?_⟩
  · intro s t hs hne hp hlt
    subst hs
    have h1 : s.data.isEmpty = false := by
      cases hd : s.data
      · exact absurd hd hne
      · rfl
    simp [mustNotifyUpgrade, hnl, h1, hp, hlt]
  · simp only [mustNotifyUpgrade, hnl, Bool.false_eq_true, if_false]
    split
    · exact Or.inl ⟨rfl, rfl⟩
    · right
      match net with
      | .error e => exact ⟨rfl, rfl⟩
      | .ok latest =>
        by_cases hcl : current = latest
        · simp [hcl]
        · simp [hcl]
  · simp only [mustNotifyUpgrade, hnl, Bool.false_eq_true, if_false]
    split
    · intro h
      simp at h
    · intro _
      simp
  · intro s t hs hp hle
    subst hs
    have hdec : decide (t + expiresMs > now) = false := by
      simp
      omega
    simp only [mustNotifyUpgrade, hnl, Bool.false_eq_true, if_false, hp, hdec,
      Bool.and_false, if_false]
    match net with
    | .error e => rfl
    | .ok latest =>
      by_cases hcl : current = latest
      · simp [hcl]
      · simp [hcl]

theorem upgrade_cache_c4_witness :
    isLocalVersion "v1.0.0" = false
    ∧ ((∀ s t, (some "0" : Option String) = some s → s.data ≠ [] →
          parseIntJS s = some t → 90000000 < t + expiresMs →
          mustNotifyUpgrade "v1.0.0" (some "0") 90000000 (.ok "v1.0.0")
            = ⟨.ok none, some "0", 0⟩)
      ∧ (((mustNotifyUpgrade "v1.0.0" (some "0") 90000000 (.ok "v1.0.0")).fetches = 0
            ∧ (mustNotifyUpgrade "v1.0.0" (some "0") 90000000 (.ok "v1.0.0")).store
                = some "0")
          ∨ ((mustNotifyUpgrade "v1.0.0" (some "0") 90000000 (.ok "v1.0.0")).fetches = 1
            ∧ (mustNotifyUpgrade "v1.0.0" (some "0") 90000000 (.ok "v1.0.0")).store
                = some (Nat.repr 90000000)))
      ∧ ((mustNotifyUpgrade "v1.0.0" (some "0") 90000000 (.error ())).fetches = 1 →
          (mustNotifyUpgrade "v1.0.0" (some "0") 90000000 (.error ())).store
              = some (Nat.repr 90000000)
            ∧ (mustNotifyUpgrade "v1.0.0" (some "0") 90000000 (.error ())).result
                = .error ())
      ∧ (∀ s t, (some "0" : Option String) = some s → parseIntJS s = some t →
          t + expiresMs ≤ 90000000 →
          (mustNotifyUpgrade "v1.0.0" (some "0") 90000000 (.ok "v1.0.0")).fetches = 1)) :=
  ⟨by decide,
    upgrade_cache_c4 "v1.0.0" (some "0") 90000000 (.ok "v1.0.0") (by decide)⟩

/-- Control point of the coroutine running `concurrent` (core/utils.ts
lines 7-27): in the `for await` loop and ready to pull the next item
(`iter`), suspended on `await Promise.race(executing)` (`race`),
suspended on the final `await Promise.all(executing)` (`allWait`), or
settled: the returned promise fulfilled (`done`) or rejected
(`failed`). -/
inductive Ctrl where
  | iter
  | race
  | allWait
  | done
  | failed
deriving DecidableEq

/-- Model of one run of `concurrent`.  Items are their source indices
`0..K-1`.  `pending` holds the items the source has not yet yielded;
`executing` is the source's `executing` array: one entry per promise `p`
still in the array, carrying the invocation's index and whether that
promise has rejected (a fulfilled `p` is spliced out by the completion
continuation `.then(() => executing.splice(...))` attached at start; a
rejected one is never removed, since `.then` has no rejection handler);
`started`, `fulfilled` and `rejected` log the invocation starts and
settlements in order. -/
structure CState where
  pending : List Nat
  executing : List (Nat × Bool)
  ctrl : Ctrl
  started : List Nat
  fulfilled : List Nat
  rejected : List Nat
deriving DecidableEq

/-- Start of a run over a source of `K` items: nothing pulled, nothing
executing, the loop about to pull. -/
def initState (K : Nat) : CState :=
  ⟨List.range K, [], .iter, [], [], []⟩

/-- One scheduler step of a run of `concurrent` with limit `L`; `cr`
tells whether worker invocations are allowed to reject (the worker's
behaviour is scheduler-chosen, so runs of every worker are covered).
`pull` is one loop iteration: the next item is pulled, its worker starts
synchronously, `p` is pushed, and the loop awaits `Promise.race` exactly
when `executing.length >= limit`.  `fulfill` settles a running
invocation successfully and runs its continuation, which splices the
handle out; it resolves a pending race, and resolves the final
`Promise.all` when it empties the array.  `reject` settles an invocation
with an error: the handle stays, and a pending `race`/`all` rejects,
failing the run.  `raceFail`/`allFail` reject a newly entered
`race`/`all` over an already-rejected member.  `drain` leaves the loop
when the source is exhausted, and `allDone` resolves the final
`Promise.all` of an empty array. -/
inductive Step (cr : Bool) (L : Nat) : CState → CState → Prop where
  | pull (i : Nat) (rest : List Nat) (s : CState) :
      s.ctrl = .iter → s.pending = i :: rest →
      Step cr L s
        { pending := rest,
          executing := s.executing ++ [(i, false)],
          ctrl := if L ≤ s.executing.length + 1 then .race else .iter,
          started := s.started ++ [i],
          fulfilled := s.fulfilled,
          rejected := s.rejected }
  | drain (s : CState) :
      s.ctrl = .iter → s.pending = [] →
      Step cr L s { s with ctrl := .allWait }
  | fulfill (i : Nat) (pre post : List (Nat × Bool)) (s : CState) :
      s.executing = pre ++ (i, false) :: post →
      Step cr L s
        { s with
          executing := pre ++ post,
          fulfilled := s.fulfilled ++ [i],
          ctrl := if s.ctrl = .race then .iter
            else if s.ctrl = .allWait ∧ pre ++ post = [] then .done
            else s.ctrl }
  | reject (i : Nat) (pre post : List (Nat × Bool)) (s : CState) :
      cr = true → s.executing = pre ++ (i, false) :: post →
      Step cr L s
        { s with
          executing := pre ++ (i, true) :: post,
          rejected := s.rejected ++ [i],
          ctrl := if s.ctrl = .race ∨ s.ctrl = .allWait then .failed else s.ctrl }
  | raceFail (i : Nat) (s : CState) :
      s.ctrl = .race → (i, true) ∈ s.executing →
      Step cr L s { s with ctrl := .failed }
  | allFail (i : Nat) (s : CState) :
      s.ctrl = .allWait → (i, true) ∈ s.executing →
      Step cr L s { s with ctrl := .failed }
  | allDone (s : CState) :
      s.ctrl = .allWait → s.executing = [] →
      Step cr L s { s with ctrl := .done }

/-- The states one run of `concurrent` over `K` items with limit `L` can
reach. -/
def Reach (cr : Bool) (L K : Nat) (s : CState) : Prop :=
  Relation.ReflTransGen (Step cr L) (initState K) s

/-- Run invariant: starts are a prefix of the source order; every started
invocation is either fulfilled (and spliced) or still in `executing`;
after the loop nothing is pending; a fulfilled run has an empty array;
with `L ≥ 1` the array never exceeds `L` entries and is strictly below
`L` while the loop is ready to pull; without rejections nothing rejects
and the run cannot fail; a pending race has a nonempty array. -/
structure Inv (cr : Bool) (L K : Nat) (s : CState) : Prop where
  hsp : s.started ++ s.pending = List.range K
  hperm : s.started.Perm (s.fulfilled ++ s.executing.map Prod.fst)
  hpend : s.ctrl = .allWait ∨ s.ctrl = .done → s.pending = []
  hdone : s.ctrl = .done → s.executing = []
  hlen : 1 ≤ L → s.executing.length ≤ L ∧ (s.ctrl = .iter → s.executing.length < L)
  hrej : cr = false →
    s.rejected = [] ∧ (∀ p ∈ s.executing, p.2 = false) ∧ s.ctrl ≠ .failed
  hrace : s.ctrl = .race → s.executing ≠ []

theorem inv_init (cr : Bool) (L K : Nat) : Inv cr L K (initState K) := by
  refine ⟨by simp [initState], by simp [initState], ?_, ?_, ?_, ?_, ?_⟩
  · rintro (h | h) <;> simp [initState] at h
  · intro h; simp [initState] at h
  · intro hL
    exact ⟨by simp [initState], fun _ => by simpa [initState] using hL⟩
  · intro _
    refine ⟨rfl, ?_, ?_⟩
    · intro p hp; simp [initState] at hp
    · intro h; simp [initState] at h
  · intro h; simp [initState] at h

theorem inv_step {cr : Bool} {L K : Nat} {s s2 : CState}
    (hi : Inv cr L K s) (hs : Step cr L s s2) : Inv cr L K s2 := by
  obtain ⟨hsp, hperm, hpend, hdone, hlen, hrej, hrace⟩ := hi
  cases hs with
  | pull i rest t hctrl hpd =>
    refine ⟨?_, ?_, ?_, ?_, ?_, ?_, ?_⟩
    · rw [hpd] at hsp
      simpa [List.append_assoc] using hsp
    · have h2 := hperm.append_right [i]
      simpa [List.map_append, List.append_assoc] using h2
    · intro h
      rcases h with h | h <;> split at h <;> simp at h
    · intro h
      split at h <;> simp at h
    · intro hL
      obtain ⟨h1, h2⟩ := hlen hL
      have hlt := h2 hctrl
      constructor
      · simp only [List.length_append, List.length_cons, List.length_nil]
        omega
      · intro h
        split at h
        · simp at h
        · rename_i hcond
          simp only [List.length_append, List.length_cons, List.length_nil]
          omega
    · intro hf
      obtain ⟨hr1, hr2, hr3⟩ := hrej hf
      refine ⟨hr1, ?_, ?_⟩
      · intro p hp
        rcases List.mem_append.mp hp with hp | hp
        · exact hr2 p hp
        · simp only [List.mem_singleton] at hp
          rw [hp]
      · intro h
        split at h <;> simp at h
    · intro _
      simp
  | drain t hctrl hpd =>
    refine ⟨hsp, hperm, ?_, ?_, ?_, ?_, ?_⟩
    · intro _; exact hpd
    · intro h; simp at h
    · intro hL
      obtain ⟨h1, h2⟩ := hlen hL
      exact ⟨h1, fun h => by simp at h⟩
    · intro hf
      obtain ⟨hr1, hr2, hr3⟩ := hrej hf
      exact ⟨hr1, hr2, by simp⟩
    · intro h; simp at h
  | fulfill i pre post t hexec =>
    refine ⟨hsp, ?_, ?_, ?_, ?_, ?_, ?_⟩
    · rw [hexec] at hperm
      have h0 : List.Perm (List.map Prod.fst pre ++ i :: List.map Prod.fst post)
          (i :: (List.map Prod.fst pre ++ List.map Prod.fst post)) := List.perm_middle
      have hmid : List.Perm (List.map Prod.fst (pre ++ (i, false) :: post))
          (i :: List.map Prod.fst (pre ++ post)) := by
        simpa [List.map_append] using h0
      have heq : (s.fulfilled ++ [i]) ++ List.map Prod.fst (pre ++ post)
          = s.fulfilled ++ i :: List.map Prod.fst (pre ++ post) := by simp
      refine hperm.trans ?_
      rw [heq]
      exact List.Perm.append_left _ hmid
    · intro h
      by_cases hr : s.ctrl = .race
      · simp only [if_pos hr] at h
        rcases h with h | h <;> simp at h
      · by_cases ha : s.ctrl = .allWait ∧ pre ++ post = []
        · exact hpend (Or.inl ha.1)
        · simp only [if_neg hr, if_neg ha] at h
          exact hpend h
    · intro h
      by_cases hr : s.ctrl = .race
      · simp only [if_pos hr] at h
        simp at h
      · by_cases ha : s.ctrl = .allWait ∧ pre ++ post = []
        · exact ha.2
        · simp only [if_neg hr, if_neg ha] at h
          have h3 := hdone h
          rw [hexec] at h3
          simp at h3
    · intro hL
      obtain ⟨h1, h2⟩ := hlen hL
      rw [hexec] at h1
      simp only [List.length_append, List.length_cons] at h1
      constructor
      · simp only [List.length_append]
        omega
      · intro h
        by_cases hr : s.ctrl = .race
        · simp only [List.length_append]
          omega
        · by_cases ha : s.ctrl = .allWait ∧ pre ++ post = []
          · simp only [if_neg hr, if_pos ha] at h
            simp at h
          · simp only [if_neg hr, if_neg ha] at h
            have h3 := h2 h
            rw [hexec] at h3
            simp only [List.length_append, List.length_cons] at h3
            simp only [List.length_append]
            omega
    · intro hf
      obtain ⟨hr1, hr2, hr3⟩ := hrej hf
      refine ⟨hr1, ?_, ?_⟩
      · intro p hp
        apply hr2
        rw [hexec]
        rcases List.mem_append.mp hp with hp | hp
        · exact List.mem_append.mpr (Or.inl hp)
        · exact List.mem_append.mpr (Or.inr (List.mem_cons_of_mem _ hp))
      · by_cases hr : s.ctrl = .race
        · simp [hr]
        · by_cases ha : s.ctrl = .allWait ∧ pre ++ post = []
          · simp [hr, ha]
          · rw [if_neg hr, if_neg ha]
            exact hr3
    · intro h
      by_cases hr : s.ctrl = .race
      · simp only [if_pos hr] at h
        simp at h
      · by_cases ha : s.ctrl = .allWait ∧ pre ++ post = []
        · simp only [if_neg hr, if_pos ha] at h
          simp at h
        · simp only [if_neg hr, if_neg ha] at h
          exact absurd h hr
  | reject i pre post t hcr hexec =>
    refine ⟨hsp, ?_, ?_, ?_, ?_, ?_, ?_⟩
    · rw [hexec] at hperm
      simpa [List.map_append] using hperm
    · intro h
      by_cases hc : s.ctrl = .race ∨ s.ctrl = .allWait
      · simp only [if_pos hc] at h
        rcases h with h | h <;> simp at h
      · simp only [if_neg hc] at h
        exact hpend h
    · intro h
      by_cases hc : s.ctrl = .race ∨ s.ctrl = .allWait
      · simp only [if_pos hc] at h
        simp at h
      · simp only [if_neg hc] at h
        have h3 := hdone h
        rw [hexec] at h3
        simp at h3
    · intro hL
      obtain ⟨h1, h2⟩ := hlen hL
      rw [hexec] at h1
      simp only [List.length_append, List.length_cons] at h1 ⊢
      constructor
      · omega
      · intro h
        by_cases hc : s.ctrl = .race ∨ s.ctrl = .allWait
        · simp only [if_pos hc] at h
          simp at h
        · simp only [if_neg hc] at h
          have h3 := h2 h
          rw [hexec] at h3
          simp only [List.length_append, List.length_cons] at h3
          omega
    · intro hf
      rw [hf] at hcr
      cases hcr
    · intro _
      simp
  | raceFail i t hctrl hmem =>
    refine ⟨hsp, hperm, ?_, ?_, ?_, ?_, ?_⟩
    · intro h
      rcases h with h | h <;> simp at h
    · intro h; simp at h
    · intro hL
      obtain ⟨h1, h2⟩ := hlen hL
      exact ⟨h1, fun h => by simp at h⟩
    · intro hf
      obtain ⟨hr1, hr2, hr3⟩ := hrej hf
      have h3 := hr2 _ hmem
      simp at h3
    · intro h; simp at h
  | allFail i t hctrl hmem =>
    refine ⟨hsp, hperm, ?_, ?_, ?_, ?_, ?_⟩
    · intro h
      rcases h with h | h <;> simp at h
    · intro h; simp at h
    · intro hL
      obtain ⟨h1, h2⟩ := hlen hL
      exact ⟨h1, fun h => by simp at h⟩
    · intro hf
      obtain ⟨hr1, hr2, hr3⟩ := hrej hf
      have h3 := hr2 _ hmem
      simp at h3
    · intro h; simp at h
  | allDone t hctrl hexec =>
    refine ⟨hsp, hperm, ?_, ?_, ?_, ?_, ?_⟩
    · intro _
      exact hpend (Or.inl hctrl)
    · intro _
      exact hexec
    · intro hL
      obtain ⟨h1, h2⟩ := hlen hL
      exact ⟨h1, fun h => by simp at h⟩
    · intro hf
      obtain ⟨hr1, hr2, hr3⟩ := hrej hf
      exact ⟨hr1, hr2, by simp⟩
    · intro h; simp at h

theorem inv_reach {cr : Bool} {L K : Nat} {s : CState} (h : Reach cr L K s) :
    Inv cr L K s := by
  have h2 : Relation.ReflTransGen (Step cr L) (initState K) s := h
  clear h
  induction h2 with
  | refl => exact inv_init cr L K
  | tail hsteps hstep ih => exact inv_step ih hstep

theorem started_nodup {cr : Bool} {L K : Nat} {s : CState} (hi : Inv cr L K s) :
    s.started.Nodup := by
  have hr : (s.started ++ s.pending).Nodup := by
    rw [hi.hsp]
    exact List.nodup_range K
  exact hr.of_append_left

/-- Claim C1 (amended): for every limit `L ≥ 1`, in every run of
`concurrent` — rejecting workers included — at every reachable instant
the number of unresolved invocations is at most `L` (the `executing`
array itself never exceeds `L` entries); and in runs in which every
started invocation fulfills, a run whose returned promise fulfills has
invoked the worker exactly once per item in source order
(`started = range K`), the source is exhausted and every invocation has
settled (the array is empty and the fulfilled multiset is exactly the
item set), and an unfinished run can always take a step.  As stated the
claim is false on the two remaining counts: at limit `L = 0` the worker
is started before the length check, so an instant with one unresolved
invocation is reached; and a rejection aborts the loop, so fewer than
`K` invocations can occur — see the counterexample. -/
theorem concurrent_bounded_c1 (L K : Nat) (hL : 1 ≤ L) :
    (∀ (cr : Bool) (s : CState), Reach cr L K s →
        s.executing.countP (fun p => !p.2) ≤ L ∧ s.executing.length ≤ L)
    ∧ (∀ s : CState, Reach false L K s →
        (s.ctrl = .done →
          s.started = List.range K ∧ s.pending = [] ∧ s.executing = []
            ∧ s.fulfilled.Perm (List.range K))
        ∧ (s.ctrl ≠ .done → ∃ s2, Step false L s s2)) := by
  constructor
  · intro cr s h
    have hi := inv_reach h
    have hlen := (hi.hlen hL).1
    exact ⟨le_trans (List.countP_le_length _) hlen, hlen⟩
  · intro s h
    have hi := inv_reach h
    refine ⟨?_, ?_⟩
    · intro hd
      have hex := hi.hdone hd
      have hpd := hi.hpend (Or.inr hd)
      have hst : s.started = List.range K := by
        have := hi.hsp
        rw [hpd, List.append_nil] at this
        exact this
      refine ⟨hst, hpd, hex, ?_⟩
      have hp := hi.hperm
      rw [hex, hst] at hp
      simpa using hp.symm
    · intro hnd
      cases hc : s.ctrl with
      | iter =>
        cases hp : s.pending with
        | nil => exact ⟨_, Step.drain s hc hp⟩
        | cons i rest => exact ⟨_, Step.pull i rest s hc hp⟩
      | race =>
        have hne := hi.hrace hc
        cases hx : s.executing with
        | nil => exact absurd hx hne
        | cons q tail =>
          obtain ⟨j, b⟩ := q
          have hb : b = false :=
            (hi.hrej rfl).2.1 (j, b) (by rw [hx]; exact List.mem_cons_self _ _)
          subst hb
          exact ⟨_, Step.fulfill j [] tail s (by rw [hx]; rfl)⟩
      | allWait =>
        cases hx : s.executing with
        | nil => exact ⟨_, Step.allDone s hc hx⟩
        | cons q tail =>
          obtain ⟨j, b⟩ := q
          have hb : b = false :=
            (hi.hrej rfl).2.1 (j, b) (by rw [hx]; exact List.mem_cons_self _ _)
          subst hb
          exact ⟨_, Step.fulfill j [] tail s (by rw [hx]; rfl)⟩
      | done => exact absurd hc hnd
      | failed => exact absurd hc ((hi.hrej rfl).2.2)

theorem concurrent_bounded_c1_witness :
    1 ≤ 1
    ∧ ((∀ (cr : Bool) (s : CState), Reach cr 1 1 s →
          s.executing.countP (fun p => !p.2) ≤ 1 ∧ s.executing.length ≤ 1)
      ∧ (∀ s : CState, Reach false 1 1 s →
          (s.ctrl = .done →
            s.started = List.range 1 ∧ s.pending = [] ∧ s.executing = []
              ∧ s.fulfilled.Perm (List.range 1))
          ∧ (s.ctrl ≠ .done → ∃ s2, Step false 1 s s2))) :=
  ⟨Nat.le_refl 1, concurrent_bounded_c1 1 1 (Nat.le_refl 1)⟩

/-- Counterexample to claim C1 as stated, on both quantifiers it gets
wrong.  Exactly-`K` invocations fails for a rejecting worker: with two
items, limit 1 and a worker whose first invocation rejects, `concurrent`
reaches a settled (rejected) state in which only one invocation was ever
started — not exactly `K = 2` — the source is not exhausted, and no
further step is possible.  The bound fails for "every limit `L`" at
`L = 0`: the worker is started before the `executing.length >= limit`
check, so a run with one item reaches an instant with one unresolved
invocation, exceeding the limit. -/
theorem concurrent_bounded_c1_counterexample :
    (Reach true 1 2 ⟨[1], [(0, true)], .failed, [0], [], [0]⟩
      ∧ (⟨[1], [(0, true)], .failed, [0], [], [0]⟩ : CState).started ≠ List.range 2
      ∧ (⟨[1], [(0, true)], .failed, [0], [], [0]⟩ : CState).pending ≠ []
      ∧ (∀ s2, ¬ Step true 1 (⟨[1], [(0, true)], .failed, [0], [], [0]⟩ : CState) s2))
    ∧ (Reach false 0 1 ⟨[], [(0, false)], .race, [0], [], []⟩
      ∧ 0 < (⟨[], [(0, false)], .race, [0], [], []⟩ : CState).executing.countP
          (fun p => !p.2)) := by
  refine ⟨⟨?_, by decide, by decide, ?_⟩, ?_, by decide⟩
  · exact
      Relation.ReflTransGen.tail
        (Relation.ReflTransGen.tail Relation.ReflTransGen.refl
          (Step.pull 0 [1] (initState 2) rfl rfl))
        (Step.reject 0 [] [] ⟨[1], [(0, false)], .race, [0], [], []⟩ rfl rfl)
  · intro s2 hstep
    cases hstep with
    | pull i rest t hctrl hpd => simp at hctrl
    | drain t hctrl hpd => simp at hctrl
    | fulfill i pre post t hexec =>
      cases pre with
      | nil => simp at hexec
      | cons a l => simp at hexec
    | reject i pre post t hcr hexec =>
      cases pre with
      | nil => simp at hexec
      | cons a l => simp at hexec
    | raceFail i t hctrl hmem => simp at hctrl
    | allFail i t hctrl hmem => simp at hctrl
    | allDone t hctrl hexec => simp at hctrl
  · exact
      Relation.ReflTransGen.tail Relation.ReflTransGen.refl
        (Step.pull 0 [] (initState 1) rfl rfl)

/-- Claim C2 (amended): whenever a started invocation fulfills, the
completion continuation attached at start time deregisters its handle —
in every reachable state of every run no fulfilled invocation remains in
the `executing` array.  As stated the claim is false for rejections: the
continuation is attached with `.then` and only runs on fulfillment, so a
rejected invocation's handle is never removed — see the
counterexample. -/
theorem concurrent_deregister_c2 (cr : Bool) (L K : Nat) (s : CState)
    (h : Reach cr L K s) :
    ∀ i ∈ s.fulfilled, ∀ b, (i, b) ∉ s.executing := by
  have hi := inv_reach h
  intro i hif b hmem
  have hnd : (s.fulfilled ++ s.executing.map Prod.fst).Nodup :=
    (hi.hperm.nodup_iff).mp (started_nodup hi)
  rw [List.nodup_append] at hnd
  exact hnd.2.2 hif (List.mem_map.mpr ⟨(i, b), hmem, rfl⟩)

theorem concurrent_deregister_c2_witness :
    Reach false 2 1 ⟨[], [], .iter, [0], [0], []⟩
    ∧ (∀ i ∈ (⟨[], [], .iter, [0], [0], []⟩ : CState).fulfilled, ∀ b,
        (i, b) ∉ (⟨[], [], .iter, [0], [0], []⟩ : CState).executing) :=
  have hreach : Reach false 2 1 ⟨[], [], .iter, [0], [0], []⟩ :=
    Relation.ReflTransGen.tail
      (Relation.ReflTransGen.tail Relation.ReflTransGen.refl
        (Step.pull 0 [] (initState 1) rfl rfl))
      (Step.fulfill 0 [] [] ⟨[], [(0, false)], .iter, [0], [], []⟩ rfl)
  ⟨hreach, concurrent_deregister_c2 false 2 1 ⟨[], [], .iter, [0], [0], []⟩ hreach⟩

/-- Counterexample to claim C2 as stated: one item, limit 2, a worker
that rejects.  The run reaches the settled (rejected) state in which
invocation 0 has completed — it rejected — yet its handle is still
registered in the `executing` array: rejection never deregisters. -/
theorem concurrent_deregister_c2_counterexample :
    Reach true 2 1 ⟨[], [(0, true)], .failed, [0], [], [0]⟩
    ∧ (⟨[], [(0, true)], .failed, [0], [], [0]⟩ : CState).rejected = [0]
    ∧ ((0, true)) ∈ (⟨[], [(0, true)], .failed, [0], [], [0]⟩ : CState).executing := by
  refine ⟨?_, rfl, by decide⟩
  exact
    Relation.ReflTransGen.tail
      (Relation.ReflTransGen.tail
        (Relation.ReflTransGen.tail Relation.ReflTransGen.refl
          (Step.pull 0 [] (initState 1) rfl rfl))
        (Step.drain ⟨[], [(0, false)], .iter, [0], [], []⟩ rfl rfl))
      (Step.reject 0 [] [] ⟨[], [(0, false)], .allWait, [0], [], []⟩ rfl rfl)

/-- Claim C10: invocations start strictly in source order — in every
reachable state of every run (any limit, rejections allowed), the items
started so far followed by the items not yet pulled are exactly the
source sequence, so the start log is the length-`n` prefix of the source
order: the `i`-th invocation starts before the `(i+1)`-th item is
pulled. -/
theorem concurrent_start_order_c10 (cr : Bool) (L K : Nat) (s : CState)
    (h : Reach cr L K s) :
    s.started ++ s.pending = List.range K
    ∧ s.started = (List.range K).take s.started.length := by
  have hi := inv_reach h
  refine ⟨hi.hsp, ?_⟩
  rw [← hi.hsp]
  exact (List.take_left s.started s.pending).symm

theorem concurrent_start_order_c10_witness :
    Reach true 3 2 ⟨[1], [(0, false)], .iter, [0], [], []⟩
    ∧ ((⟨[1], [(0, false)], .iter, [0], [], []⟩ : CState).started
          ++ (⟨[1], [(0, false)], .iter, [0], [], []⟩ : CState).pending = List.range 2
      ∧ (⟨[1], [(0, false)], .iter, [0], [], []⟩ : CState).started
          = (List.range 2).take
              (⟨[1], [(0, false)], .iter, [0], [], []⟩ : CState).started.length) :=
  have hreach : Reach true 3 2 ⟨[1], [(0, false)], .iter, [0], [], []⟩ :=
    Relation.ReflTransGen.tail Relation.ReflTransGen.refl
      (Step.pull 0 [1] (initState 2) rfl rfl)
  ⟨hreach,
    concurrent_start_order_c10 true 3 2 ⟨[1], [(0, false)], .iter, [0], [], []⟩ hreach⟩

/-- Heap-level JavaScript value: a primitive, or a reference to a heap
object.  This second embedding of `merge` makes object identity and
in-place mutation explicit, to settle what `merge` does to the objects
its caller passed in. -/
inductive HVal where
  | prim : Int → HVal
  | addr : Nat → HVal
deriving DecidableEq

/-- Kind of a heap object, fixing its `toString` and `$$typeof`
behaviour: an ordinary object, an Array, a react element, an object with
a null prototype (no `toString`), or an object whose overridden
`toString` returns the given string. -/
inductive HKind where
  | plain
  | arrK
  | reactK
  | nullProtoK
  | weirdK : String → HKind
deriving DecidableEq

/-- A heap object: its kind and its fields in insertion order (an Array
is the object whose fields are its index keys). -/
structure HObj where
  kind : HKind
  fields : List (String × HVal)
deriving DecidableEq

/-- The heap: objects indexed by address; `{...}` literals allocate at
the end. -/
abbrev Heap := List HObj

/-- Property read on heap-object fields. -/
def lookupH : List (String × HVal) → String → Option HVal
  | [], _ => none
  | (k, v) :: rest, key => if k == key then some v else lookupH rest key

/-- Property write on heap-object fields: an existing key keeps its
position, a new key is appended. -/
def insertH : List (String × HVal) → String → HVal → List (String × HVal)
  | [], key, nv => [(key, nv)]
  | (k, v) :: rest, key, nv =>
    if k == key then (k, nv) :: rest else (k, v) :: insertH rest key nv

/-- Own enumerable fields of a value — what `Object.entries` and spread
read; a primitive has none. -/
def getFields (h : Heap) (v : HVal) : List (String × HVal) :=
  match v with
  | .prim _ => []
  | .addr a =>
    match h[a]? with
    | none => []
    | some o => o.fields

/-- In-place property write `obj[k] = v` on the object at address `a`:
only that heap cell changes. -/
def setField (h : Heap) (a : Nat) (k : String) (v : HVal) : Heap :=
  match h[a]? with
  | none => h
  | some o => h.set a ⟨o.kind, insertH o.fields k v⟩

mutual

/-- JavaScript `toString` on a heap value, with fuel standing for the
call-stack bound (exhaustion throws, as a stack overflow does). -/
def toStringH : Nat → Heap → HVal → Except Unit String
  | 0, _, _ => .error ()
  | _ + 1, _, .prim n => .ok (toString n)
  | fuel + 1, h, .addr a =>
    match h[a]? with
    | none => .error ()
    | some o =>
      match o.kind with
      | .plain => .ok "[object Object]"
      | .reactK => .ok "[object Object]"
      | .nullProtoK => .error ()
      | .weirdK s => .ok s
      | .arrK => (toStringListH fuel h (o.fields.map Prod.snd)).map (String.intercalate ",")

/-- String conversion of a list of array elements, left to right. -/
def toStringListH : Nat → Heap → List HVal → Except Unit (List String)
  | 0, _, _ => .error ()
  | _ + 1, _, [] => .ok []
  | fuel + 1, h, v :: rest =>
    match toStringH fuel h v with
    | .error e => .error e
    | .ok s =>
      match toStringListH fuel h rest with
      | .error e => .error e
      | .ok l => .ok (s :: l)

end

/-- Heap-level `isPlainObject`: reads the heap, never writes it. -/
def isPlainObjectH (fuel : Nat) (h : Heap) (v : HVal) : Except Unit Bool :=
  match v with
  | .prim _ => .ok false
  | .addr a =>
    match h[a]? with
    | none => .ok false
    | some o =>
      match o.kind with
      | .plain => .ok true
      | .reactK => .ok false
      | .nullProtoK => .error ()
      | .weirdK s => .ok (s == "[object Object]")
      | .arrK => (toStringH fuel h v).map (fun s => s == "[object Object]")

/-- Truthiness of the `user` argument at heap level. -/
def falsyH : Option HVal → Bool
  | none => true
  | some (.prim n) => n == 0
  | some (.addr _) => false

mutual

/-- Heap-level embedding of `merge(defaults, user?)` (core/utils.ts lines
114-137): `{...defaults}` allocates a fresh plain object at the end of
the heap and copies `defaults`' fields into it; if `user` is falsy the
fresh object is returned, otherwise the entries of `user` are folded into
it in place by `mergeFieldsH`.  `fuel` bounds the recursion depth
(exhaustion throws, as the engine's stack overflow does) and is consumed
on every nested call, so both functions are structural. -/
def mergeH : Nat → Heap → HVal → Option HVal → Heap × Except Unit HVal
  | 0, h, _, _ => (h, .error ())
  | fuel + 1, h, d, u =>
    let ma := h.length
    let h1 := h ++ [⟨.plain, getFields h d⟩]
    match u with
    | none => (h1, .ok (.addr ma))
    | some uv =>
      if falsyH (some uv) then (h1, .ok (.addr ma))
      else mergeFieldsH fuel h1 ma (getFields h1 uv)

/-- The loop of `merge` at heap level: for each user entry `(k, v)`, read
the merged object's current value at `k`; when both are plain objects,
merge them recursively into a fresh object and store the fresh reference
at `k`, otherwise store `v` itself (aliasing the user's value); each
store writes the merged object's own heap cell only. -/
def mergeFieldsH : Nat → Heap → Nat → List (String × HVal) → Heap × Except Unit HVal
  | 0, h, _, _ => (h, .error ())
  | _ + 1, h, ma, [] => (h, .ok (.addr ma))
  | fuel + 1, h, ma, (k, v) :: rest =>
    match lookupH (getFields h (.addr ma)) k with
    | none => mergeFieldsH fuel (setField h ma k v) ma rest
    | some cur =>
      match isPlainObjectH fuel h cur with
      | .error e => (h, .error e)
      | .ok false => mergeFieldsH fuel (setField h ma k v) ma rest
      | .ok true =>
        match isPlainObjectH fuel h v with
        | .error e => (h, .error e)
        | .ok false => mergeFieldsH fuel (setField h ma k v) ma rest
        | .ok true =>
          match mergeH fuel h cur (some v) with
          | (h2, .error e) => (h2, .error e)
          | (h2, .ok r) => mergeFieldsH fuel (setField h2 ma k r) ma rest

end

theorem length_setField (h : Heap) (a : Nat) (k : String) (v : HVal) :
    (setField h a k v).length = h.length := by
  rw [setField]
  split
  · rfl
  · exact List.length_set h a _

theorem getElem_setField_ne (h : Heap) (a : Nat) (k : String) (v : HVal)
    {b : Nat} (hne : b ≠ a) : (setField h a k v)[b]? = h[b]? := by
  rw [setField]
  split
  · rfl
  · exact List.getElem?_set_ne (fun he => hne he.symm)

theorem frame_both (fuel : Nat) :
    (∀ (h : Heap) (d : HVal) (u : Option HVal),
        h.length ≤ (mergeH fuel h d u).1.length
        ∧ ∀ a, a < h.length → (mergeH fuel h d u).1[a]? = h[a]?)
    ∧ (∀ (h : Heap) (ma : Nat) (l : List (String × HVal)),
        h.length ≤ (mergeFieldsH fuel h ma l).1.length
        ∧ ∀ a, a < h.length → a ≠ ma → (mergeFieldsH fuel h ma l).1[a]? = h[a]?) := by
  induction fuel with
  | zero =>
    constructor
    · intro h d u
      simp [mergeH]
    · intro h ma l
      simp [mergeFieldsH]
  | succ fuel ih =>
    obtain ⟨ihA, ihB⟩ := ih
    constructor
    · intro h d u
      cases u with
      | none =>
        simp only [mergeH]
        constructor
        · simp
        · intro a ha
          exact List.getElem?_append_left ha
      | some uv =>
        by_cases hf : falsyH (some uv) = true
        · simp only [mergeH]
          rw [if_pos hf]
          constructor
          · simp
          · intro a ha
            exact List.getElem?_append_left ha
        · simp only [mergeH]
          rw [if_neg hf]
          obtain ⟨hl, hfr⟩ := ihB (h ++ [⟨.plain, getFields h d⟩]) h.length
            (getFields (h ++ [⟨.plain, getFields h d⟩]) uv)
          constructor
          · refine le_trans ?_ hl
            simp
          · intro a ha
            rw [hfr a (by simp; omega) (Nat.ne_of_lt ha)]
            exact List.getElem?_append_left ha
    · intro h ma l
      cases l with
      | nil =>
        simp [mergeFieldsH]
      | cons p rest =>
        obtain ⟨k, v⟩ := p
        simp only [mergeFieldsH]
        cases hlook : lookupH (getFields h (.addr ma)) k with
        | none =>
          simp only [hlook]
          obtain ⟨hl, hfr⟩ := ihB (setField h ma k v) ma rest
          rw [length_setField] at hl
          refine ⟨hl, ?_⟩
          intro a ha hne
          rw [hfr a (by rw [length_setField]; exact ha) hne,
            getElem_setField_ne h ma k v hne]
        | some cur =>
          simp only [hlook]
          cases hc : isPlainObjectH fuel h cur with
          | error e =>
            simp [hc]

          | ok b1 =>
            cases b1 with
            | false =>
              simp only [hc]
              obtain ⟨hl, hfr⟩ := ihB (setField h ma k v) ma rest
              rw [length_setField] at hl
              refine ⟨hl, ?_⟩
              intro a ha hne
              rw [hfr a (by rw [length_setField]; exact ha) hne,
                getElem_setField_ne h ma k v hne]
            | true =>
              simp only [hc]
              cases hv2 : isPlainObjectH fuel h v with
              | error e =>
                simp [hv2]
              | ok b2 =>
                cases b2 with
                | false =>
                  simp only [hv2]
                  obtain ⟨hl, hfr⟩ := ihB (setField h ma k v) ma rest
                  rw [length_setField] at hl
                  refine ⟨hl, ?_⟩
                  intro a ha hne
                  rw [hfr a (by rw [length_setField]; exact ha) hne,
                    getElem_setField_ne h ma k v hne]
                | true =>
                  simp only [hv2]
                  obtain ⟨hA1, hA2⟩ := ihA h cur (some v)
                  cases hm : mergeH fuel h cur (some v) with
                  | mk h2 res =>
                    rw [hm] at hA1 hA2
                    dsimp only at hA1 hA2
                    cases res with
                    | error e =>
                      refine ⟨hA1, ?_⟩
                      intro a ha hne
                      exact hA2 a ha
                    | ok r =>
                      obtain ⟨hl, hfr⟩ := ihB (setField h2 ma k r) ma rest
                      rw [length_setField] at hl
                      constructor
                      · exact le_trans hA1 hl
                      · intro a ha hne
                        rw [hfr a (by rw [length_setField]; omega) hne,
                          getElem_setField_ne h2 ma k r hne]
                        exact hA2 a ha

/-- Claim C7: `merge` never mutates its arguments.  At heap level,
`merge` writes only to the fresh objects it allocates (`{...defaults}`
copies and every `merged[key] =` store targets a fresh address), so after
any call — whatever the fuel, the arguments, or the outcome — every
pre-existing heap cell is unchanged.  Since `defaults`, `user` and all
their nested objects and arrays live at pre-existing addresses, both
arguments are deep-equal to their pre-call snapshots. -/
theorem merge_no_mutation_c7 (fuel : Nat) (h : Heap) (d : HVal) (u : Option HVal) (a : Nat)
    (ha : a < h.length) :
    (mergeH fuel h d u).1[a]? = h[a]? ∧ h.length ≤ (mergeH fuel h d u).1.length :=
  ⟨((frame_both fuel).1 h d u).2 a ha, ((frame_both fuel).1 h d u).1⟩

theorem merge_no_mutation_c7_witness :
    0 < ([⟨.plain, [("a", HVal.prim 1)]⟩] : Heap).length
    ∧ ((mergeH 3 [⟨.plain, [("a", HVal.prim 1)]⟩] (.addr 0) (some (.addr 0))).1[0]?
          = ([⟨.plain, [("a", HVal.prim 1)]⟩] : Heap)[0]?
      ∧ ([⟨.plain, [("a", HVal.prim 1)]⟩] : Heap).length
          ≤ (mergeH 3 [⟨.plain, [("a", HVal.prim 1)]⟩] (.addr 0) (some (.addr 0))).1.length) :=
  ⟨by decide,
    merge_no_mutation_c7 3 [⟨.plain, [("a", HVal.prim 1)]⟩] (.addr 0) (some (.addr 0)) 0
      (by decide)⟩

end Lume
